import Mathlib

/-!
Verification of the listeningcarousel generation pipeline.

The segmenter (src/utils/textSplitter.ts) is embedded over `List Char`
strings. JavaScript regex-driven loops are translated into recursive
scanners; the one unbounded loop in `adjustSlideCount` (the bisection
while-loop) is modelled with explicit fuel, so `splitStory` returns
`Option (List Str)` with `none` meaning the fuel ran out.
-/

abbrev Str := List Char

/-- JS whitespace class `\s`, restricted to the ASCII whitespace characters
(space, tab, newline, carriage return, vertical tab, form feed). -/
def isWS (c : Char) : Bool :=
  c = ' ' || c = '\t' || c = '\n' || c = '\r' || c = '\x0b' || c = '\x0c'

/-- `String.prototype.trim`. -/
def jsTrim (s : Str) : Str :=
  ((s.dropWhile isWS).reverse.dropWhile isWS).reverse

theorem length_dropWhile_le (p : Char → Bool) (l : Str) :
    (l.dropWhile p).length ≤ l.length := by
  induction l with
  | nil => simp [List.dropWhile]
  | cons c cs ih =>
    by_cases h : p c
    · simpa [List.dropWhile, h] using Nat.le_succ_of_le ih
    · simp [List.dropWhile, h]

/-- Worker for `jsSplitWS`: JS `s.split(/\s+/)`. `cur` holds the piece
currently being accumulated; `inSep` records that the scanner is inside a
whitespace run (one separator per maximal run). Keeps leading and
trailing empty pieces, exactly like the JS split. -/
def splitWSGo (inSep : Bool) (cur : Str) : Str → List Str
  | [] => [cur]
  | c :: cs =>
    if inSep then
      if isWS c then splitWSGo true [] cs
      else splitWSGo false [c] cs
    else
      if isWS c then cur :: splitWSGo true [] cs
      else splitWSGo false (cur ++ [c]) cs

/-- JS `text.split(/\s+/)`. -/
def jsSplitWS (s : Str) : List Str := splitWSGo false [] s

/-- Worker for `wordsOf`: `cur` is the non-whitespace run currently being
accumulated. -/
def wordsOfGo (cur : Str) : Str → List Str
  | [] => if cur = [] then [] else [cur]
  | c :: cs =>
    if isWS c then
      if cur = [] then wordsOfGo [] cs else cur :: wordsOfGo [] cs
    else wordsOfGo (cur ++ [c]) cs

/-- The maximal runs of non-whitespace characters of `s`, in order: the
word sequence of `s` used to state content preservation. -/
def wordsOf (s : Str) : List Str := wordsOfGo [] s

/-- JS `Array.prototype.join(' ')`. -/
def joinSp : List Str → Str
  | [] => []
  | [s] => s
  | s :: r :: rest => s ++ ' ' :: joinSp (r :: rest)

/-- Sentence-ending punctuation class `[.!?]` of the regex in
`splitIntoSentences`. -/
def isSentPunct (c : Char) : Bool := c = '.' || c = '!' || c = '?'

/-- Clause punctuation class `[,;—–-]` of the regex in
`splitLongSentence`. -/
def isClausePunct (c : Char) : Bool :=
  c = ',' || c = ';' || c = '—' || c = '–' || c = '-'

/-- Scanner state for `splitIntoSentences`: `normal acc` is ordinary
scanning with `acc` the text since `lastIndex`; `run acc r` means the
scanner is inside a maximal `[.!?]+` run `r`; `skip` means a match was
just emitted and its trailing `\s+` run is being consumed. -/
inductive SentState
  | normal (acc : Str)
  | run (acc : Str) (r : Str)
  | skip

/-- Scanner for `splitIntoSentences` (textSplitter.ts lines 22-44): the
exec-loop over `/([.!?]+)\s+/g`. A match is a maximal run of `[.!?]`
followed by at least one whitespace character; the cut keeps the
punctuation, trims the piece, and skips the whitespace run. A run not
followed by whitespace is ordinary text. -/
def sentGo (st : SentState) : Str → List Str
  | [] =>
    match st with
    | .normal acc => if jsTrim acc = [] then [] else [jsTrim acc]
    | .run acc r => if jsTrim (acc ++ r) = [] then [] else [jsTrim (acc ++ r)]
    | .skip => []
  | c :: cs =>
    match st with
    | .normal acc =>
      if isSentPunct c then sentGo (.run acc [c]) cs
      else sentGo (.normal (acc ++ [c])) cs
    | .run acc r =>
      if isSentPunct c then sentGo (.run acc (r ++ [c])) cs
      else if isWS c then
        (if jsTrim (acc ++ r) = [] then sentGo .skip cs
         else jsTrim (acc ++ r) :: sentGo .skip cs)
      else sentGo (.normal (acc ++ r ++ [c])) cs
    | .skip =>
      if isWS c then sentGo .skip cs
      else if isSentPunct c then sentGo (.run [] [c]) cs
      else sentGo (.normal [c]) cs

/-- `splitIntoSentences` (textSplitter.ts lines 22-44). -/
def splitIntoSentences (text : Str) : List Str :=
  (sentGo (.normal []) text).filter (fun s => 0 < s.length)

/-- Scanner for `splitLongSentence` (textSplitter.ts lines 49-91): the
exec-loop over `/([,;—–-])\s*/g` with its greedy accumulation into
`cur`, plus the handling of the remaining text once the loop ends.
`skipping` means the scanner is inside the `\s*` run of a match (so
`acc = []` there); `acc` is the text since `lastIndex`. -/
def slsGo (maxChars : ℕ) (skipping : Bool) (cur : Str) (segs : List Str) (acc : Str) :
    Str → List Str
  | [] =>
    let remaining := jsTrim acc
    if cur = [] then
      if remaining = [] then segs else segs ++ [remaining]
    else
      if (cur ++ ' ' :: remaining).length ≤ maxChars then segs ++ [cur ++ ' ' :: remaining]
      else segs ++ [cur] ++ (if remaining = [] then [] else [remaining])
  | c :: cs =>
    if skipping ∧ isWS c then slsGo maxChars true cur segs acc cs
    else if isClausePunct c then
      (if (cur ++ ' ' :: jsTrim (acc ++ [c])).length ≤ maxChars then
        slsGo maxChars true
          (if cur = [] then jsTrim (acc ++ [c]) else cur ++ ' ' :: jsTrim (acc ++ [c])) segs [] cs
      else
        slsGo maxChars true (jsTrim (acc ++ [c]))
          (if cur = [] then segs else segs ++ [cur]) [] cs)
    else slsGo maxChars false cur segs (acc ++ [c]) cs

/-- `splitLongSentence` (textSplitter.ts lines 49-91). -/
def splitLongSentence (sentence : Str) (maxChars : ℕ) : List Str :=
  if sentence.length ≤ maxChars then [sentence]
  else
    let segs := slsGo maxChars false [] [] [] sentence
    if segs = [] then [sentence] else segs

/-- Worker for `splitByCharacterCount` (textSplitter.ts lines 96-119):
greedy packing of the word list into chunks of at most `maxChars`
characters. -/
def sbcGo (maxChars : ℕ) (cur : Str) (chunks : List Str) : List Str → List Str
  | [] => if cur = [] then chunks else chunks ++ [cur]
  | w :: ws =>
    let test := if cur = [] then w else cur ++ ' ' :: w
    if test.length ≤ maxChars then sbcGo maxChars test chunks ws
    else sbcGo maxChars w (if cur = [] then chunks else chunks ++ [cur]) ws

/-- `splitByCharacterCount` (textSplitter.ts lines 96-119). -/
def splitByCharacterCount (text : Str) (maxChars : ℕ) : List Str :=
  sbcGo maxChars [] [] (jsSplitWS text)

/-- JS `Math.ceil(a / b)` for natural `a`, `b` with `b ≥ 1`. (For `b = 0`
the JS expression is `Infinity`; every use below is guarded by `b ≥ 1`.) -/
def jsCeilDiv (a b : ℕ) : ℕ := (a + b - 1) / b

/-- Consecutive batches of `step` elements, in order: the `for (i = 0;
i < slides.length; i += step)` slicing loop of the merge branch of
`adjustSlideCount`. (For `step = 0` the JS loop would not terminate; the
merge branch always calls it with `step ≥ 2`.) -/
def chunksOfGo {α : Type} (step : ℕ) : ℕ → List α → List (List α)
  | _, [] => []
  | 0, _ :: _ => []
  | b + 1, a :: rest => (a :: rest).take step :: chunksOfGo step b ((a :: rest).drop step)

def chunksOf {α : Type} (step : ℕ) (l : List α) : List (List α) :=
  if step = 0 then [] else chunksOfGo step l.length l

/-- The merge branch of `adjustSlideCount` (textSplitter.ts lines 134-143)
before the final `slice(0, maxSlides)`: batches of
`ceil(n / maxSlides)` consecutive slides, each joined with single spaces. -/
def mergeSlides (slides : List Str) (maxSlides : ℕ) : List Str :=
  (chunksOf (jsCeilDiv slides.length maxSlides) slides).map joinSp

/-- The `reduce` computing `largestIndex` in `adjustSlideCount`
(textSplitter.ts lines 163-165): index of the longest slide, first
occurrence winning ties. -/
def argmaxIdx (e : List Str) : ℕ :=
  e.enum.foldl (fun best p => if (e.getD best []).length < p.2.length then p.1 else best) 0

/-- JS `expanded.splice(i, 1, ...pieces)`. -/
def spliceAt (e : List Str) (i : ℕ) (pieces : List Str) : List Str :=
  e.take i ++ pieces ++ e.drop (i + 1)

/-- The `while` loop of the expansion branch of `adjustSlideCount`
(textSplitter.ts lines 162-174), with explicit fuel: repeatedly bisect the
currently longest slide while the count is below `minSlides` and the
longest slide exceeds 50 characters. `none` means the fuel ran out (the JS
loop does not terminate on every input). -/
def expandLoop (minSlides : ℕ) (fuel : ℕ) (e : List Str) : Option (List Str) :=
  if e.length < minSlides ∧ 0 < e.length then
    let i := argmaxIdx e
    let largest := e.getD i []
    if 50 < largest.length then
      match fuel with
      | 0 => none
      | fuel' + 1 =>
        expandLoop minSlides fuel'
          (spliceAt e i (splitByCharacterCount largest (jsCeilDiv largest.length 2)))
    else some e
  else some e

/-- The first pass of the expansion branch of `adjustSlideCount`
(textSplitter.ts lines 148-159). -/
def expandFirstPass (minSlides target : ℕ) (slides : List Str) : List Str :=
  slides.foldl
    (fun acc slide =>
      if 100 < slide.length ∧ acc.length + target ≤ minSlides then
        acc ++ splitByCharacterCount slide (jsCeilDiv slide.length target)
      else acc ++ [slide])
    []

def placeholderS : String := "Enter your story to begin..."

/-- The placeholder returned by `adjustSlideCount` for an empty slide
list (textSplitter.ts line 130). -/
def placeholderText : Str := placeholderS.data

/-- `adjustSlideCount` (textSplitter.ts lines 124-180), fuelled because of
its `while` loop. -/
def adjustSlideCountFuel (fuel : ℕ) (slides : List Str) (minSlides maxSlides : ℕ) :
    Option (List Str) :=
  if slides = [] then some [placeholderText]
  else if maxSlides < slides.length then
    some ((mergeSlides slides maxSlides).take maxSlides)
  else if slides.length < minSlides then
    let target := jsCeilDiv minSlides slides.length
    (expandLoop minSlides fuel (expandFirstPass minSlides target slides)).map
      (fun e => e.take maxSlides)
  else some slides

/-- `SplitOptions` (textSplitter.ts lines 7-11), with every field present
(the JS merge with `DEFAULT_OPTIONS` always yields a full record). -/
structure SplitOptions where
  maxCharsPerSlide : ℕ
  minSlides : ℕ
  maxSlides : ℕ

/-- `DEFAULT_OPTIONS` (textSplitter.ts lines 13-17). -/
def DEFAULT_OPTIONS : SplitOptions := ⟨125, 8, 20⟩

/-- Stages 1-3 of `splitStory` (textSplitter.ts lines 194-217) applied to
the trimmed text: sentence split, clause split of long sentences, then
character-budget split of anything still over the limit. -/
def candidateSlides (text : Str) (opts : SplitOptions) : List Str :=
  let slides := splitIntoSentences (jsTrim text)
  let processedSlides := slides.flatMap
    (fun s => if opts.maxCharsPerSlide < s.length then splitLongSentence s opts.maxCharsPerSlide else [s])
  processedSlides.flatMap
    (fun s => if opts.maxCharsPerSlide < s.length then splitByCharacterCount s opts.maxCharsPerSlide else [s])

/-- `splitStory` (textSplitter.ts lines 185-221), fuelled through
`adjustSlideCount`. -/
def splitStoryFuel (fuel : ℕ) (text : Str) (opts : SplitOptions) : Option (List Str) :=
  if jsTrim text = [] then some []
  else adjustSlideCountFuel fuel (candidateSlides text opts) opts.minSlides opts.maxSlides

/-!
Color handling (src/utils/imageProcessor.ts).
-/

/-- Value of one hexadecimal digit, or `none`. -/
def hexDigitVal (c : Char) : Option ℕ :=
  if '0' ≤ c ∧ c ≤ '9' then some (c.toNat - '0'.toNat)
  else if 'a' ≤ c ∧ c ≤ 'f' then some (c.toNat - 'a'.toNat + 10)
  else if 'A' ≤ c ∧ c ≤ 'F' then some (c.toNat - 'A'.toNat + 10)
  else none

/-- Digits consumed by `parseInt(_, 16)` after the optional prefix. -/
def jsParseInt16Core (r : Str) : Option ℕ :=
  let r2 := match r with
    | '0' :: x :: rest => if x = 'x' ∨ x = 'X' then rest else r
    | _ => r
  let ds := r2.takeWhile (fun c => (hexDigitVal c).isSome)
  if ds = [] then none
  else some (ds.foldl (fun a c => 16 * a + (hexDigitVal c).getD 0) 0)

/-- JS `parseInt(s, 16)`: leading whitespace skipped, optional sign,
optional 0x prefix, then the longest hexadecimal-digit run; `none` models
`NaN`. -/
def jsParseInt16 (s : Str) : Option Int :=
  match s.dropWhile isWS with
  | '-' :: r => (jsParseInt16Core r).map (fun n => -(n : Int))
  | '+' :: r => (jsParseInt16Core r).map (fun n => (n : Int))
  | r => (jsParseInt16Core r).map (fun n => (n : Int))

/-- Value of a decimal-digit run (the radix-10 `parseInt` on a match of
`/\d+/g`, which is always a nonempty digit run). -/
def decVal (s : Str) : ℕ :=
  s.foldl (fun a c => 10 * a + (c.toNat - '0'.toNat)) 0

/-- Worker for `digitRuns`: `cur` is the digit run being accumulated. -/
def digitRunsGo (cur : Str) : Str → List Str
  | [] => if cur = [] then [] else [cur]
  | c :: cs =>
    if c.isDigit then digitRunsGo (cur ++ [c]) cs
    else if cur = [] then digitRunsGo [] cs else cur :: digitRunsGo [] cs

/-- The matches of `/\d+/g`: maximal runs of decimal digits, in order. -/
def digitRuns (s : Str) : List Str := digitRunsGo [] s

def listStartsWith : Str → Str → Bool
  | [], _ => true
  | _ :: _, [] => false
  | p :: ps, c :: cs => p = c && listStartsWith ps cs

/-- JS `String.prototype.includes`. -/
def containsSub (pat : Str) (s : Str) : Bool :=
  match s with
  | [] => listStartsWith pat []
  | _ :: cs => listStartsWith pat s || containsSub pat cs

def rgbPat : Str := ['r', 'g', 'b']

def rgbWhiteS : String := "rgb(255, 255, 255)"

def whiteLit : Str := ['w', 'h', 'i', 't', 'e']

def hashFFF : Str := ['#', 'f', 'f', 'f']

def hashFFFFFF : Str := ['#', 'f', 'f', 'f', 'f', 'f', 'f']

/-- `isWhiteColor` (imageProcessor.ts lines 118-157). The float average
test `(r + g + b) / 3 > 200` on integer channel values is equivalent to
`r + g + b > 600` (exact for every channel triple, and any `NaN` channel
makes the JS comparison false). -/
def isWhiteColor (color : Str) : Bool :=
  let n := (jsTrim color).map Char.toLower
  let hexResult : Option Bool :=
    match n with
    | c :: rest =>
      if c = '#' then
        let hex := if rest.length = 3 then rest.flatMap (fun x => [x, x]) else rest
        if hex.length = 6 then
          match jsParseInt16 (hex.take 2), jsParseInt16 ((hex.drop 2).take 2),
              jsParseInt16 (hex.drop 4) with
          | some r, some g, some b => some (600 < r + g + b)
          | _, _, _ => some false
        else none
      else none
    | [] => none
  match hexResult with
  | some b => b
  | none =>
    let rgbResult : Option Bool :=
      if containsSub rgbPat n then
        let ms := digitRuns n
        if 3 ≤ ms.length then
          some (600 < decVal (ms.getD 0 []) + decVal (ms.getD 1 []) + decVal (ms.getD 2 []))
        else none
      else none
    match rgbResult with
    | some b => b
    | none => n == hashFFFFFF || n == hashFFF || n == whiteLit || n == rgbWhiteS.data

def blackHex : Str := ['#', '0', '0', '0', '0', '0', '0']

def whiteHexUpper : Str := ['#', 'F', 'F', 'F', 'F', 'F', 'F']

/-- `getInverseOutlineColor` (imageProcessor.ts lines 162-168). -/
def getInverseOutlineColor (textColor : Str) : Str :=
  if isWhiteColor textColor then blackHex else whiteHexUpper

/-!
Layout geometry (src/utils/imageProcessor.ts), over exact rationals.
-/

def CANVAS_WIDTH : ℚ := 1080

def CANVAS_HEIGHT : ℚ := 1350

inductive TextPosition
  | top
  | center
  | bottom

/-- `getTextPosition` (imageProcessor.ts lines 47-66). -/
def getTextPosition (position : TextPosition) (textHeight outlineWidth : ℚ) : ℚ :=
  match position with
  | .top => 80 + textHeight / 2 + outlineWidth / 2 + 20
  | .bottom => CANVAS_HEIGHT - 80 - textHeight / 2 - outlineWidth / 2 - 20
  | .center => CANVAS_HEIGHT / 2

/-- JS `text.split(' ')` (single-space separator, keeping empty pieces). -/
def splitSpGo (cur : Str) : Str → List Str
  | [] => [cur]
  | c :: cs => if c = ' ' then cur :: splitSpGo [] cs else splitSpGo (cur ++ [c]) cs

/-- `wrapText` (imageProcessor.ts lines 87-113), with the canvas text
measurement abstracted as `measure`. -/
def wrapGo (measure : Str → ℚ) (maxWidth : ℚ) (cur : Str) (lines : List Str) :
    List Str → List Str
  | [] => if cur = [] then lines else lines ++ [cur]
  | w :: ws =>
    let test := if cur = [] then w else cur ++ ' ' :: w
    if maxWidth < measure test ∧ cur ≠ [] then wrapGo measure maxWidth w (lines ++ [cur]) ws
    else wrapGo measure maxWidth test lines ws

def wrapText (measure : Str → ℚ) (text : Str) (maxWidth : ℚ) : List Str :=
  let lines := wrapGo measure maxWidth [] [] (splitSpGo [] text)
  if lines = [] then [text] else lines

/-- The start-Y computation of `drawText` (imageProcessor.ts lines
191-208): center the block at `yPosition`, clamp the first line to
`minY`, then clamp the last line to `maxY`. -/
def drawTextStartY (fontSize outlineWidth yPosition : ℚ) (lineCount : ℕ) : ℚ :=
  let lineHeight := fontSize * 1.4
  let totalHeight := (lineCount : ℚ) * lineHeight
  let startY0 := yPosition - totalHeight / 2
  let minY := fontSize / 2 + outlineWidth / 2 + 10
  let startY1 := if startY0 < minY then minY else startY0
  let maxY := CANVAS_HEIGHT - fontSize / 2 - outlineWidth / 2 - 10
  let lastLineY := startY1 + ((lineCount : ℚ) - 1) * lineHeight
  if maxY < lastLineY then maxY - ((lineCount : ℚ) - 1) * lineHeight else startY1

/-- `drawText` (imageProcessor.ts lines 173-235) reduced to its layout
output: the wrapped lines and the clamped start Y; line `i` is drawn at
`startY + i * fontSize * 1.4`. -/
def drawTextModel (measure : Str → ℚ) (text : Str) (fontSize outlineWidth yPosition : ℚ) :
    List Str × ℚ :=
  let lines := wrapText measure text (CANVAS_WIDTH - 160)
  (lines, drawTextStartY fontSize outlineWidth yPosition lines.length)

/-- The cover-fit scaling block of `createCarouselSlide` (imageProcessor.ts
lines 259-278): draw width, draw height, draw X, draw Y. -/
def coverFit (w h : ℚ) : ℚ × ℚ × ℚ × ℚ :=
  let imgAspect := w / h
  let canvasAspect := CANVAS_WIDTH / CANVAS_HEIGHT
  if canvasAspect < imgAspect then
    (CANVAS_HEIGHT * imgAspect, CANVAS_HEIGHT, (CANVAS_WIDTH - CANVAS_HEIGHT * imgAspect) / 2, 0)
  else
    (CANVAS_WIDTH, CANVAS_WIDTH / imgAspect, 0, (CANVAS_HEIGHT - CANVAS_WIDTH / imgAspect) / 2)

/-!
Orchestrator state (src/App.tsx), for `regenerateSingleSlide`.
Photos and rendered slide bytes are abstracted as natural-number ids;
`createCarouselSlide` is abstracted as the `render` parameter. Slides are
`Option`-valued because a JS array assignment past the end creates holes.
-/

structure AppState where
  photo : Option ℕ
  slideTexts : List Str
  customSlidePhotos : ℕ → Option ℕ
  slides : List (Option ℕ)

/-- JS `updated[index] = v` on a copy of the array: in-bounds assignment
replaces, out-of-bounds assignment lengthens the array with holes. -/
def jsArraySet (l : List (Option ℕ)) (i : ℕ) (v : ℕ) : List (Option ℕ) :=
  if i < l.length then l.set i (some v)
  else l ++ List.replicate (i - l.length) none ++ [some v]

/-- `regenerateSingleSlide` (App.tsx lines 611-659) reduced to its effect
on the slide list. `overridePhoto = none` models the argument being
`undefined`; `some none` models an explicit `null`. -/
def regenerateSingleSlide (render : ℕ → Str → ℕ → ℕ) (st : AppState) (index : ℕ)
    (overridePhoto : Option (Option ℕ)) : List (Option ℕ) :=
  match st.photo with
  | none => st.slides
  | some photo =>
    if st.slideTexts.length = 0 ∨ st.slideTexts.length ≤ index then st.slides
    else
      let slidePhoto :=
        match overridePhoto with
        | some op => match op with | some p => p | none => photo
        | none => match st.customSlidePhotos index with | some p => p | none => photo
      jsArraySet st.slides index (render slidePhoto (st.slideTexts.getD index []) (index + 1))

/-!
Arithmetic and list helper lemmas.
-/

theorem jsCeilDiv_le_mul (n m : ℕ) (hm : 0 < m) : n ≤ m * jsCeilDiv n m := by
  unfold jsCeilDiv
  have h1 := Nat.div_add_mod (n + m - 1) m
  have h2 := Nat.mod_lt (n + m - 1) hm
  omega

theorem jsCeilDiv_pos (n m : ℕ) (hm : 0 < m) (hn : 0 < n) : 0 < jsCeilDiv n m := by
  unfold jsCeilDiv
  exact Nat.div_pos (by omega) hm

theorem jsCeilDiv_succ (n step : ℕ) (h1 : 0 < step) (h2 : 0 < n) :
    jsCeilDiv n step = (n - 1) / step + 1 := by
  unfold jsCeilDiv
  have h3 : n + step - 1 = (n - 1) + step := by omega
  rw [h3, Nat.add_div_right _ h1]

theorem jsCeilDiv_le_of_le_mul (n s m : ℕ) (hs : 0 < s) (h : n ≤ m * s) :
    jsCeilDiv n s ≤ m := by
  unfold jsCeilDiv
  have h2 : n + s - 1 < (m + 1) * s := by
    have h3 : (m + 1) * s = m * s + s := by ring
    omega
  have h4 := (Nat.div_lt_iff_lt_mul hs).mpr h2
  omega

theorem jsCeilDiv_zero (step : ℕ) (hstep : 0 < step) : jsCeilDiv 0 step = 0 := by
  unfold jsCeilDiv
  exact Nat.div_eq_of_lt (by omega)

theorem chunksOfGo_length {α : Type} (step : ℕ) (hstep : 0 < step) :
    ∀ (b : ℕ) (l : List α), l.length ≤ b →
      (chunksOfGo step b l).length = jsCeilDiv l.length step := by
  intro b
  induction b with
  | zero =>
    intro l hb
    cases l with
    | nil => simp [chunksOfGo, jsCeilDiv_zero step hstep]
    | cons a rest => simp at hb
  | succ b ih =>
    intro l hb
    cases l with
    | nil => simp [chunksOfGo, jsCeilDiv_zero step hstep]
    | cons a rest =>
      rw [chunksOfGo]
      have hlen : 0 < (a :: rest).length := by simp
      have hdrop : ((a :: rest).drop step).length = (a :: rest).length - step := by
        simp only [List.length_drop]
      have hrec := ih ((a :: rest).drop step)
        (by simp only [List.length_drop]; simp at hb ⊢; omega)
      rw [List.length_cons, hrec, hdrop]
      set n := (a :: rest).length with hn
      have hposn : 0 < n := hlen
      rw [jsCeilDiv_succ n step hstep hposn]
      rcases Nat.lt_or_ge (n - step) 1 with hsmall | hbig
      · have h0 : n - step = 0 := by omega
        rw [h0, jsCeilDiv_zero step hstep]
        have : (n - 1) / step = 0 := Nat.div_eq_of_lt (by omega)
        omega
      · rw [jsCeilDiv_succ _ step hstep (by omega)]
        have h5 : n - 1 = (n - step - 1) + step := by omega
        rw [h5, Nat.add_div_right _ hstep]

theorem chunksOf_length {α : Type} (step : ℕ) (hstep : 0 < step) :
    ∀ l : List α, (chunksOf step l).length = jsCeilDiv l.length step := by
  intro l
  rw [chunksOf, if_neg (by omega : ¬ step = 0)]
  exact chunksOfGo_length step hstep l.length l (le_refl _)

theorem chunksOfGo_get? {α : Type} (step : ℕ) (hstep : 0 < step) :
    ∀ (i b : ℕ) (l : List α), l.length ≤ b → step * i < l.length →
      (chunksOfGo step b l).get? i = some ((l.drop (step * i)).take step) := by
  intro i
  induction i with
  | zero =>
    intro b l hb h
    cases l with
    | nil => simp at h
    | cons a rest =>
      cases b with
      | zero => simp at hb
      | succ b =>
        rw [chunksOfGo]
        simp
  | succ i ih =>
    intro b l hb h
    cases l with
    | nil => simp at h
    | cons a rest =>
      cases b with
      | zero => simp at hb
      | succ b =>
        rw [chunksOfGo]
        rw [Nat.mul_succ] at h
        have h2 : step * i < ((a :: rest).drop step).length := by
          simp only [List.length_drop]
          omega
        have hrec := ih b ((a :: rest).drop step)
          (by simp only [List.length_drop]; simp at hb ⊢; omega) h2
        simp only [List.get?_cons_succ]
        rw [hrec, List.drop_drop, Nat.mul_succ, Nat.add_comm step (step * i)]

theorem chunksOf_get? {α : Type} (step : ℕ) (hstep : 0 < step) :
    ∀ (i : ℕ) (l : List α), step * i < l.length →
      (chunksOf step l).get? i = some ((l.drop (step * i)).take step) := by
  intro i l h
  rw [chunksOf, if_neg (by omega : ¬ step = 0)]
  exact chunksOfGo_get? step hstep i l.length l (le_refl _) h

/-!
C8 and C4.
-/

/-- C8: for every input string whose trim is empty (including the empty
string and whitespace-only strings) and every configuration, `splitStory`
returns the empty segment list without any error (in the embedding: it
returns `some []`, for every fuel, so no failure and no divergence). -/
theorem splitStory_empty_trim (fuel : ℕ) (text : Str) (opts : SplitOptions)
    (h : jsTrim text = []) : splitStoryFuel fuel text opts = some [] := by
  simp [splitStoryFuel, h]

theorem splitStory_empty_trim_witness :
    splitStoryFuel 0 [' ', '\n'] DEFAULT_OPTIONS = some [] :=
  splitStory_empty_trim 0 [' ', '\n'] DEFAULT_OPTIONS (by decide)

/-- C4: whenever the candidate list has length `n > maxSlides ≥ 1`, the
count adjustment returns the merge of consecutive batches of
`ceil(n / maxSlides)` segments joined by single spaces; the merged list
has length at most `maxSlides`, so the final `slice(0, maxSlides)` removes
nothing; and for 40 segments with `maxSlides = 20` the result is exactly
20 merged segments, segment `i` being the in-order space-join of
originals `2i` and `2i+1`. -/
theorem adjustSlideCount_merge (fuel : ℕ) (slides : List Str) (mins maxs : ℕ)
    (h1 : 0 < maxs) (h2 : maxs < slides.length) :
    adjustSlideCountFuel fuel slides mins maxs = some (mergeSlides slides maxs) ∧
    (mergeSlides slides maxs).length ≤ maxs ∧
    (mergeSlides slides maxs).take maxs = mergeSlides slides maxs ∧
    (slides.length = 40 → maxs = 20 →
      (mergeSlides slides maxs).length = 20 ∧
      ∀ i, i < 20 →
        (mergeSlides slides maxs).get? i = some (joinSp ((slides.drop (2 * i)).take 2))) := by
  have hne : slides ≠ [] := by
    intro hc
    rw [hc] at h2
    simp at h2
  have hstep : 0 < jsCeilDiv slides.length maxs :=
    jsCeilDiv_pos _ _ h1 (by omega)
  have hlen : (mergeSlides slides maxs).length ≤ maxs := by
    unfold mergeSlides
    rw [List.length_map, chunksOf_length _ hstep]
    exact jsCeilDiv_le_of_le_mul _ _ _ hstep (jsCeilDiv_le_mul slides.length maxs h1)
  have htake : (mergeSlides slides maxs).take maxs = mergeSlides slides maxs :=
    List.take_of_length_le hlen
  refine ⟨?_, hlen, htake, ?_⟩
  · unfold adjustSlideCountFuel
    rw [if_neg hne, if_pos h2, htake]
  · intro h40 h20
    subst h20
    have hstep2 : jsCeilDiv slides.length 20 = 2 := by
      rw [h40]
      decide
    constructor
    · unfold mergeSlides
      rw [List.length_map, chunksOf_length _ hstep, hstep2, h40]
      decide
    · intro i hi
      unfold mergeSlides
      rw [hstep2]
      rw [List.get?_map]
      rw [chunksOf_get? 2 (by omega) i slides (by omega)]
      rfl

theorem adjustSlideCount_merge_witness :
    adjustSlideCountFuel 0 (List.replicate 40 ['a']) 8 20 =
      some (mergeSlides (List.replicate 40 ['a']) 20) :=
  (adjustSlideCount_merge 0 (List.replicate 40 ['a']) 8 20 (by decide) (by simp)).1

/-!
C7: cover-fit geometry.
-/

/-- C7: for every background image with positive width and height, the
cover-fit computation preserves the aspect ratio, covers the whole
1080x1350 canvas, and centers the overflow on the non-matching axis. -/
theorem coverFit_spec (w h : ℚ) (hw : 0 < w) (hh : 0 < h) :
    (coverFit w h).1 / (coverFit w h).2.1 = w / h ∧
    CANVAS_WIDTH ≤ (coverFit w h).1 ∧
    CANVAS_HEIGHT ≤ (coverFit w h).2.1 ∧
    ((coverFit w h).2.2.1 = (CANVAS_WIDTH - (coverFit w h).1) / 2 ∧ (coverFit w h).2.2.2 = 0 ∨
      (coverFit w h).2.2.1 = 0 ∧ (coverFit w h).2.2.2 = (CANVAS_HEIGHT - (coverFit w h).2.1) / 2) := by
  have ha : 0 < w / h := div_pos hw hh
  simp only [coverFit, CANVAS_WIDTH, CANVAS_HEIGHT]
  split_ifs with hc
  · have hc2 : 1080 < (w / h) * 1350 := (div_lt_iff (by norm_num)).mp hc
    refine ⟨?_, by linarith, by norm_num, Or.inl ⟨rfl, rfl⟩⟩
    exact mul_div_cancel_left₀ _ (by norm_num)
  · have hc2 : (w / h) * 1350 ≤ 1080 := (le_div_iff (by norm_num)).mp (not_lt.mp hc)
    refine ⟨?_, by norm_num, ?_, Or.inr ⟨rfl, rfl⟩⟩
    · rw [div_div_eq_mul_div, mul_comm, mul_div_assoc, div_self (by norm_num : (1080 : ℚ) ≠ 0),
        mul_one]
    · rw [le_div_iff ha]
      linarith

theorem coverFit_witness : CANVAS_WIDTH ≤ (coverFit 1000 500).1 :=
  (coverFit_spec 1000 500 (by norm_num) (by norm_num)).2.1

/-!
C6: the vertical clamp in drawText.
-/

/-- C6 counterexample: with font size 72, outline width 5, position
center, and 14 wrapped lines, the clamped start Y is below the claimed
lower bound `fontSize/2 + outlineWidth/2 + 10`. -/
theorem drawText_clamp_counterexample :
    drawTextStartY 72 5 (getTextPosition TextPosition.center (14 * (72 * 1.4)) 5) 14 <
      72 / 2 + 5 / 2 + 10 := by
  norm_num [drawTextStartY, getTextPosition, CANVAS_HEIGHT]

/-- C6 (amended): for every font size, outline width, anchor position
(any `yPosition`, in particular any `getTextPosition` output) and line
count, after the clamp the last drawn line's y position is at most
`canvasHeight - fontSize/2 - outlineWidth/2 - 10`; the first line's y
position is at least `fontSize/2 + outlineWidth/2 + 10` provided the
whole block fits between the two bounds; and the wrapped line list is
unchanged by clamping. -/
theorem drawText_clamp (measure : Str → ℚ) (text : Str)
    (fontSize outlineWidth yPosition : ℚ) (n : ℕ) :
    drawTextStartY fontSize outlineWidth yPosition n + ((n : ℚ) - 1) * (fontSize * 1.4) ≤
      CANVAS_HEIGHT - fontSize / 2 - outlineWidth / 2 - 10 ∧
    (((n : ℚ) - 1) * (fontSize * 1.4) ≤
        (CANVAS_HEIGHT - fontSize / 2 - outlineWidth / 2 - 10) -
          (fontSize / 2 + outlineWidth / 2 + 10) →
      fontSize / 2 + outlineWidth / 2 + 10 ≤ drawTextStartY fontSize outlineWidth yPosition n) ∧
    (drawTextModel measure text fontSize outlineWidth yPosition).1 =
      wrapText measure text (CANVAS_WIDTH - 160) := by
  refine ⟨?_, ?_, rfl⟩
  · simp only [drawTextStartY]
    split_ifs <;> linarith
  · intro hfit
    simp only [drawTextStartY]
    split_ifs <;> linarith

theorem drawText_clamp_witness :
    72 / 2 + 5 / 2 + 10 ≤ drawTextStartY 72 5 675 3 := by
  apply (drawText_clamp (fun _ => 0) [] 72 5 675 3).2.1
  norm_num [CANVAS_HEIGHT]

/-!
C10: regenerateSingleSlide.
-/

/-- Counterexample to C10: with a default photo set, a two-entry cached
slide-text list but a one-entry slide list (reachable: the text cache is
set before the slides state, and persisted texts load without slides),
the call at index 1 passes every guard and the JS assignment
`updated[1] = newSlide` lengthens the slide list from 1 to 2 entries, so
"the list's length unchanged" fails. -/
theorem regenerateSingleSlide_counterexample :
    regenerateSingleSlide (fun p _ i => p + i)
        ⟨some 7, [['h'], ['i']], fun _ => none, [some 3]⟩ 1 none = [some 3, some 9] ∧
      ([some 3, some 9] : List (Option ℕ)).length ≠ ([some 3] : List (Option ℕ)).length := by
  constructor
  · decide
  · decide

/-- C10 (amended): with no default photo, an empty cached slide-text list,
or an index at or past the end of the cached slide-text list,
`regenerateSingleSlide` leaves the slide list untouched. Otherwise, if the
index is within the slide list it replaces exactly the slide at `index`,
keeping the length and every other entry; but if the index is valid for
the cached text list yet at or past the end of the slide list, the JS
assignment lengthens the list to `index + 1` entries — existing entries
unchanged, the gap filled with holes, the new slide at `index` — so the
length does change in that reachable case. -/
theorem regenerateSingleSlide_spec (render : ℕ → Str → ℕ → ℕ) (st : AppState) (index : ℕ)
    (op : Option (Option ℕ)) :
    (st.photo = none ∨ st.slideTexts = [] ∨ st.slideTexts.length ≤ index →
      regenerateSingleSlide render st index op = st.slides) ∧
    (st.photo ≠ none → st.slideTexts ≠ [] → index < st.slideTexts.length →
      (index < st.slides.length →
        (regenerateSingleSlide render st index op).length = st.slides.length ∧
        (∀ j, j ≠ index → (regenerateSingleSlide render st index op)[j]? = st.slides[j]?) ∧
        ∃ b, (regenerateSingleSlide render st index op)[index]? = some (some b)) ∧
      (st.slides.length ≤ index →
        (regenerateSingleSlide render st index op).length = index + 1 ∧
        (∀ j, j < st.slides.length →
          (regenerateSingleSlide render st index op)[j]? = st.slides[j]?) ∧
        (∀ j, st.slides.length ≤ j → j < index →
          (regenerateSingleSlide render st index op)[j]? = some none) ∧
        ∃ b, (regenerateSingleSlide render st index op)[index]? = some (some b))) := by
  constructor
  · intro hg
    cases hp : st.photo with
    | none => simp only [regenerateSingleSlide, hp]
    | some p =>
      have hguard : st.slideTexts.length = 0 ∨ st.slideTexts.length ≤ index := by
        rcases hg with h | h | h
        · rw [hp] at h
          exact absurd h (by simp)
        · exact Or.inl (by simp [h])
        · exact Or.inr h
      simp only [regenerateSingleSlide, hp]
      rw [if_pos hguard]
  · intro h1 h2 h3
    obtain ⟨p, hp⟩ := Option.ne_none_iff_exists'.mp h1
    have hguard : ¬ (st.slideTexts.length = 0 ∨ st.slideTexts.length ≤ index) := by
      have hlen : 0 < st.slideTexts.length := List.length_pos.mpr h2
      push_neg
      exact ⟨by omega, by omega⟩
    constructor
    · intro h4
      simp only [regenerateSingleSlide, hp]
      rw [if_neg hguard]
      simp only [jsArraySet]
      rw [if_pos h4]
      refine ⟨List.length_set _ _ _, ?_, ?_⟩
      · intro j hj
        exact List.getElem?_set_ne (fun hc => hj hc.symm)
      · exact ⟨_, List.getElem?_set_eq h4⟩
    · intro h4
      simp only [regenerateSingleSlide, hp]
      rw [if_neg hguard]
      simp only [jsArraySet]
      rw [if_neg (by omega : ¬ index < st.slides.length)]
      refine ⟨?_, ?_, ?_, ?_⟩
      · simp only [List.length_append, List.length_replicate, List.length_cons,
          List.length_nil]
        omega
      · intro j hj
        rw [List.getElem?_append,
          if_pos (by simp only [List.length_append, List.length_replicate]; omega)]
        rw [List.getElem?_append, if_pos hj]
      · intro j hj1 hj2
        rw [List.getElem?_append,
          if_pos (by simp only [List.length_append, List.length_replicate]; omega)]
        rw [List.getElem?_append, if_neg (by omega)]
        rw [List.getElem?_replicate, if_pos (by omega)]
      · rw [List.getElem?_append,
          if_neg (by simp only [List.length_append, List.length_replicate]; omega)]
        have hlen : (st.slides ++ List.replicate (index - st.slides.length)
            (none : Option ℕ)).length = index := by
          simp only [List.length_append, List.length_replicate]
          omega
        rw [hlen, Nat.sub_self]
        exact ⟨_, rfl⟩

theorem regenerateSingleSlide_witness :
    (regenerateSingleSlide (fun p _ i => p + i)
      ⟨some 7, [['h', 'i']], fun _ => none, [some 3]⟩ 0 none).length = 1 :=
  ((((regenerateSingleSlide_spec (fun p _ i => p + i)
      ⟨some 7, [['h', 'i']], fun _ => none, [some 3]⟩ 0 none).2
    (by simp) (by simp) (by simp)).1) (by simp)).1

/-!
C5: outline-color selection.
-/

/-- Lowercase hexadecimal digit character for a value below 16. -/
def hexDigitChar (n : ℕ) : Char :=
  if n < 10 then Char.ofNat ('0'.toNat + n) else Char.ofNat ('a'.toNat + (n - 10))

/-- Two-digit lowercase hexadecimal rendering of a byte. -/
def hexByte (n : ℕ) : Str := [hexDigitChar (n / 16), hexDigitChar (n % 16)]

/-- The 6-digit hex color string `#rrggbb`. -/
def hexColorStr (r g b : ℕ) : Str := '#' :: (hexByte r ++ hexByte g ++ hexByte b)

/-- Decimal rendering of a natural number. -/
def decStr (n : ℕ) : Str := Nat.toDigits 10 n

/-- The color string `rgb(r, g, b)`. -/
def rgbColorStr (r g b : ℕ) : Str :=
  'r' :: 'g' :: 'b' :: '(' ::
    (decStr r ++ ',' :: ' ' :: (decStr g ++ ',' :: ' ' :: (decStr b ++ [')'])))

def rgbOpen : Str := ['r', 'g', 'b', '(']

def rgbaOpen : Str := ['r', 'g', 'b', 'a', '(']

/-- The color formats the claim calls recognized: a 3- or 6-digit hex
color, an `rgb(`/`rgba(` color, or the white literal. -/
def specRecognizedColor (color : Str) : Bool :=
  let n := (jsTrim color).map Char.toLower
  (match n with
   | c :: rest =>
     c = '#' && (rest.length == 3 || rest.length == 6) &&
       rest.all (fun x => (hexDigitVal x).isSome)
   | [] => false)
  || listStartsWith rgbOpen n || listStartsWith rgbaOpen n || n == whiteLit

theorem dropWhile_eq_self_of_all (p : Char → Bool) (l : Str)
    (h : ∀ c ∈ l, p c = false) : l.dropWhile p = l := by
  cases l with
  | nil => rfl
  | cons c cs => simp [List.dropWhile_cons, h c (by simp)]

theorem jsTrim_eq_self_of_all (l : Str) (h : ∀ c ∈ l, isWS c = false) : jsTrim l = l := by
  unfold jsTrim
  rw [dropWhile_eq_self_of_all _ _ h,
    dropWhile_eq_self_of_all _ _ (fun c hc => h c (List.mem_reverse.mp hc)), List.reverse_reverse]

theorem jsTrim_cons_concat (c d : Char) (mid : Str) (hc : isWS c = false)
    (hd : isWS d = false) : jsTrim (c :: (mid ++ [d])) = c :: (mid ++ [d]) := by
  unfold jsTrim
  rw [List.dropWhile_cons, hc]
  simp only [Bool.false_eq_true, if_false]
  have hrev : (c :: (mid ++ [d])).reverse = d :: (mid.reverse ++ [c]) := by simp
  rw [hrev, List.dropWhile_cons, hd]
  simp

theorem map_toLower_eq_self (l : Str) (h : ∀ c ∈ l, Char.toLower c = c) :
    l.map Char.toLower = l := by
  induction l with
  | nil => rfl
  | cons c cs ih => simp [h c (by simp), ih (fun x hx => h x (by simp [hx]))]

set_option maxRecDepth 4000 in
theorem hexByte_chars : ∀ n : Fin 256,
    (hexByte n.val).all (fun c => !isWS c && (Char.toLower c == c)) = true := by decide

set_option maxRecDepth 4000 in
theorem hexByte_parse : ∀ n : Fin 256, jsParseInt16 (hexByte n.val) = some (n.val : Int) := by
  decide

theorem hexByte_len (n : ℕ) : (hexByte n).length = 2 := rfl

set_option maxRecDepth 4000 in
theorem decStr_chars : ∀ n : Fin 256,
    (decStr n.val).all (fun c => c.isDigit && !isWS c && (Char.toLower c == c)) = true := by
  decide

set_option maxRecDepth 4000 in
theorem decStr_ne_nil : ∀ n : Fin 256, decStr n.val ≠ [] := by decide

set_option maxRecDepth 4000 in
theorem decStr_val : ∀ n : Fin 256, decVal (decStr n.val) = n.val := by decide

theorem takeWhile_append_all (p : Char → Bool) (a : Str) (d : Char) (s : Str)
    (ha : ∀ c ∈ a, p c = true) (hd : p d = false) :
    (a ++ d :: s).takeWhile p = a := by
  induction a with
  | nil => simp [List.takeWhile_cons, hd]
  | cons c cs ih =>
    rw [List.cons_append, List.takeWhile_cons, if_pos (ha c (by simp))]
    rw [ih (fun x hx => ha x (by simp [hx]))]

theorem dropWhile_append_all (p : Char → Bool) (a : Str) (d : Char) (s : Str)
    (ha : ∀ c ∈ a, p c = true) (hd : p d = false) :
    (a ++ d :: s).dropWhile p = d :: s := by
  induction a with
  | nil => simp [List.dropWhile_cons, hd]
  | cons c cs ih =>
    rw [List.cons_append, List.dropWhile_cons, if_pos (ha c (by simp))]
    exact ih (fun x hx => ha x (by simp [hx]))

theorem digitRuns_cons_of_not (c : Char) (s : Str) (h : c.isDigit = false) :
    digitRuns (c :: s) = digitRuns s := by
  show digitRunsGo [] (c :: s) = digitRunsGo [] s
  simp [digitRunsGo, h]

theorem digitRunsGo_run (a : Str) (d : Char) (s : Str)
    (hall : ∀ c ∈ a, c.isDigit = true) (hd : d.isDigit = false) :
    ∀ cur : Str, cur ++ a ≠ [] →
      digitRunsGo cur (a ++ d :: s) = (cur ++ a) :: digitRunsGo [] s := by
  induction a with
  | nil =>
    intro cur hne
    rw [List.append_nil] at hne
    rw [List.append_nil, List.nil_append]
    simp [digitRunsGo, hd, hne]
  | cons c a' ih =>
    intro cur hne
    have hc := hall c (by simp)
    rw [List.cons_append]
    show digitRunsGo cur (c :: (a' ++ d :: s)) = (cur ++ c :: a') :: digitRunsGo [] s
    simp only [digitRunsGo, hc, if_true]
    rw [ih (fun x hx => hall x (by simp [hx])) (cur ++ [c]) (by simp)]
    simp

theorem digitRuns_run_append (a : Str) (d : Char) (s : Str) (ha : a ≠ [])
    (hall : ∀ c ∈ a, c.isDigit = true) (hd : d.isDigit = false) :
    digitRuns (a ++ d :: s) = a :: digitRuns s := by
  show digitRunsGo [] (a ++ d :: s) = a :: digitRunsGo [] s
  rw [digitRunsGo_run a d s hall hd [] (by simpa using ha)]
  simp

theorem containsSub_of_startsWith (pat s : Str) (h : listStartsWith pat s = true) :
    containsSub pat s = true := by
  cases s with
  | nil => simpa [containsSub] using h
  | cons c cs =>
    rw [containsSub, h]
    simp

theorem hexColorStr_chars (r g b : Fin 256) :
    ∀ c ∈ hexColorStr r.val g.val b.val, isWS c = false ∧ Char.toLower c = c := by
  intro c hc
  rw [hexColorStr] at hc
  simp only [List.mem_cons, List.mem_append] at hc
  have hfin : ∀ n : Fin 256, c ∈ hexByte n.val → isWS c = false ∧ Char.toLower c = c := by
    intro n hn
    have := List.all_eq_true.mp (hexByte_chars n) c hn
    simp only [Bool.and_eq_true, Bool.not_eq_true', beq_iff_eq] at this
    exact ⟨this.1, this.2⟩
  rcases hc with hc | (hc | hc) | hc
  · subst hc
    exact ⟨by decide, by decide⟩
  · exact hfin r hc
  · exact hfin g hc
  · exact hfin b hc

theorem isWhiteColor_hex (r g b : Fin 256) :
    isWhiteColor (hexColorStr r.val g.val b.val) =
      decide (600 < r.val + g.val + b.val) := by
  have hall := hexColorStr_chars r g b
  have hn : (jsTrim (hexColorStr r.val g.val b.val)).map Char.toLower =
      hexColorStr r.val g.val b.val := by
    rw [jsTrim_eq_self_of_all _ (fun c hc => (hall c hc).1),
      map_toLower_eq_self _ (fun c hc => (hall c hc).2)]
  simp only [isWhiteColor, hn]
  rw [hexColorStr]
  have h3 : ((hexByte r.val ++ hexByte g.val ++ hexByte b.val).length = 3) = False := by
    simp [hexByte]
  have h6 : ((hexByte r.val ++ hexByte g.val ++ hexByte b.val).length = 6) = True := by
    simp [hexByte]
  have ht1 : (hexByte r.val ++ hexByte g.val ++ hexByte b.val).take 2 = hexByte r.val := by
    rw [List.append_assoc, List.take_left' (hexByte_len r.val)]
  have hd2 : (hexByte r.val ++ hexByte g.val ++ hexByte b.val).drop 2 =
      hexByte g.val ++ hexByte b.val := by
    rw [List.append_assoc, List.drop_left' (hexByte_len r.val)]
  have ht2 : (hexByte g.val ++ hexByte b.val).take 2 = hexByte g.val :=
    List.take_left' (hexByte_len g.val)
  have hd4 : (hexByte r.val ++ hexByte g.val ++ hexByte b.val).drop 4 = hexByte b.val := by
    rw [List.append_assoc, show (4 : ℕ) = 2 + 2 from rfl, ← List.drop_drop,
      List.drop_left' (hexByte_len r.val), List.drop_left' (hexByte_len g.val)]
  simp only [if_true, h3, h6, if_false, ht1, hd2, ht2, hd4, hexByte_parse]
  rw [decide_eq_decide]
  omega

theorem decStr_all_digit (n : Fin 256) : ∀ c ∈ decStr n.val, c.isDigit = true := by
  intro c hc
  have := List.all_eq_true.mp (decStr_chars n) c hc
  simp only [Bool.and_eq_true] at this
  exact this.1.1

theorem decStr_not_ws (n : Fin 256) : ∀ c ∈ decStr n.val, isWS c = false := by
  intro c hc
  have := List.all_eq_true.mp (decStr_chars n) c hc
  simp only [Bool.and_eq_true, Bool.not_eq_true'] at this
  exact this.1.2

theorem decStr_lower (n : Fin 256) : ∀ c ∈ decStr n.val, Char.toLower c = c := by
  intro c hc
  have := List.all_eq_true.mp (decStr_chars n) c hc
  simp only [Bool.and_eq_true, beq_iff_eq] at this
  exact this.2

theorem jsTrim_eq_self_of_ends (l : Str) (h1 : ∀ c, l.head? = some c → isWS c = false)
    (h2 : ∀ c, l.getLast? = some c → isWS c = false) : jsTrim l = l := by
  cases l with
  | nil => rfl
  | cons c cs =>
    unfold jsTrim
    rw [List.dropWhile_cons, h1 c rfl]
    simp only [Bool.false_eq_true, if_false]
    cases hrev : (c :: cs).reverse with
    | nil => simpa using congrArg List.length hrev
    | cons d ds =>
      have hd : isWS d = false := by
        apply h2
        rw [← List.head?_reverse, hrev]
        rfl
      rw [List.dropWhile_cons, hd]
      simp only [Bool.false_eq_true, if_false]
      rw [← hrev, List.reverse_reverse]

/-- Reduction of `isWhiteColor` for a normalized form that is not a hex
string but passes the rgb sniff with at least three digit runs. -/
theorem isWhiteColor_rgb_case (color n : Str)
    (hn : (jsTrim color).map Char.toLower = n) (hne : n.head? ≠ some '#')
    (hcon : containsSub rgbPat n = true) (hruns : 3 ≤ (digitRuns n).length) :
    isWhiteColor color =
      decide (600 < decVal ((digitRuns n).getD 0 []) + decVal ((digitRuns n).getD 1 []) +
        decVal ((digitRuns n).getD 2 [])) := by
  simp only [isWhiteColor, hn]
  cases n with
  | nil => simp [containsSub, listStartsWith, rgbPat] at hcon
  | cons c t =>
    have hc : (c = '#') = False := by
      simp only [List.head?_cons, ne_eq, Option.some.injEq] at hne
      simp [hne]
    simp only [hc, if_false, hcon, if_true]
    rw [if_pos hruns]

/-- Reduction of `isWhiteColor` for a normalized form that matches none of
the recognizers: the result is `false` (white outline). -/
theorem isWhiteColor_unrecognized (color n : Str)
    (hn : (jsTrim color).map Char.toLower = n) (hne : n.head? ≠ some '#')
    (hcon : containsSub rgbPat n = false) (hwhite : n ≠ whiteLit) :
    isWhiteColor color = false := by
  have hbeq : ∀ lit : Str, n ≠ lit → (n == lit) = false := fun lit h =>
    beq_eq_false_iff_ne.mpr h
  have hffffff : n ≠ hashFFFFFF := by
    intro h
    rw [h] at hne
    exact hne rfl
  have hfff : n ≠ hashFFF := by
    intro h
    rw [h] at hne
    exact hne rfl
  have hrgbw : n ≠ rgbWhiteS.data := by
    intro h
    have hcontains : containsSub rgbPat rgbWhiteS.data = true := by decide
    rw [h, hcontains] at hcon
    simp at hcon
  simp only [isWhiteColor, hn]
  cases n with
  | nil => decide
  | cons c t =>
    have hc : (c = '#') = False := by
      simp only [List.head?_cons, ne_eq, Option.some.injEq] at hne
      simp [hne]
    simp only [hc, if_false, hcon, Bool.false_eq_true]
    rw [hbeq _ hffffff, hbeq _ hfff, hbeq _ hwhite, hbeq _ hrgbw]
    rfl

theorem rgbColorStr_form (r g b : ℕ) :
    rgbColorStr r g b =
      ('r' :: 'g' :: 'b' :: '(' ::
        (decStr r ++ ',' :: ' ' :: (decStr g ++ ',' :: ' ' :: decStr b))) ++ [')'] := by
  simp [rgbColorStr]

theorem rgbColorStr_trim_lower (r g b : Fin 256) :
    (jsTrim (rgbColorStr r.val g.val b.val)).map Char.toLower =
      rgbColorStr r.val g.val b.val := by
  have htrim : jsTrim (rgbColorStr r.val g.val b.val) = rgbColorStr r.val g.val b.val := by
    apply jsTrim_eq_self_of_ends
    · intro c hc
      rw [rgbColorStr] at hc
      simp only [List.head?_cons, Option.some.injEq] at hc
      subst hc
      decide
    · intro c hc
      rw [rgbColorStr_form] at hc
      rw [List.getLast?_concat] at hc
      simp only [Option.some.injEq] at hc
      subst hc
      decide
  rw [htrim]
  apply map_toLower_eq_self
  rw [rgbColorStr]
  simp only [List.forall_mem_cons, List.forall_mem_append, and_true, true_and]
  exact ⟨by decide, by decide, by decide, by decide, decStr_lower r, by decide, by decide,
    decStr_lower g, by decide, by decide, decStr_lower b, by decide⟩

theorem digitRuns_rgbColorStr (r g b : Fin 256) :
    digitRuns (rgbColorStr r.val g.val b.val) =
      [decStr r.val, decStr g.val, decStr b.val] := by
  rw [rgbColorStr]
  rw [digitRuns_cons_of_not 'r' _ (by decide), digitRuns_cons_of_not 'g' _ (by decide),
    digitRuns_cons_of_not 'b' _ (by decide), digitRuns_cons_of_not '(' _ (by decide)]
  rw [digitRuns_run_append (decStr r.val) ',' _ (decStr_ne_nil r) (decStr_all_digit r)
    (by decide)]
  rw [digitRuns_cons_of_not ' ' _ (by decide)]
  rw [digitRuns_run_append (decStr g.val) ',' _ (decStr_ne_nil g) (decStr_all_digit g)
    (by decide)]
  rw [digitRuns_cons_of_not ' ' _ (by decide)]
  rw [digitRuns_run_append (decStr b.val) ')' [] (decStr_ne_nil b) (decStr_all_digit b)
    (by decide)]
  rfl

theorem isWhiteColor_rgb (r g b : Fin 256) :
    isWhiteColor (rgbColorStr r.val g.val b.val) =
      decide (600 < r.val + g.val + b.val) := by
  rw [isWhiteColor_rgb_case (rgbColorStr r.val g.val b.val) (rgbColorStr r.val g.val b.val)
    (rgbColorStr_trim_lower r g b) (by rw [rgbColorStr]; simp)
    (by rw [rgbColorStr]; exact containsSub_of_startsWith _ _ rfl)
    (by rw [digitRuns_rgbColorStr]; simp)]
  rw [digitRuns_rgbColorStr]
  simp only [List.getD_cons_zero, List.getD_cons_succ, decStr_val]

/-- The 3-digit hex color string `#rgb` with lowercase digits. -/
def hexColorStr3 (a b c : ℕ) : Str := ['#', hexDigitChar a, hexDigitChar b, hexDigitChar c]

set_option maxRecDepth 4000 in
theorem hexDigitChar_chars : ∀ v : Fin 16,
    isWS (hexDigitChar v.val) = false ∧
      Char.toLower (hexDigitChar v.val) = hexDigitChar v.val := by
  decide

set_option maxRecDepth 4000 in
theorem hexPair_parse : ∀ v : Fin 16,
    jsParseInt16 [hexDigitChar v.val, hexDigitChar v.val] = some ((17 * v.val : ℕ) : Int) := by
  decide

theorem hexColorStr3_norm (a b c : Fin 16) :
    (jsTrim (hexColorStr3 a.val b.val c.val)).map Char.toLower =
      hexColorStr3 a.val b.val c.val := by
  have hall : ∀ ch ∈ hexColorStr3 a.val b.val c.val,
      isWS ch = false ∧ Char.toLower ch = ch := by
    intro ch hch
    rw [hexColorStr3] at hch
    simp only [List.mem_cons, List.not_mem_nil, or_false] at hch
    rcases hch with hch | hch | hch | hch
    · rw [hch]
      exact ⟨by decide, by decide⟩
    · rw [hch]
      exact hexDigitChar_chars a
    · rw [hch]
      exact hexDigitChar_chars b
    · rw [hch]
      exact hexDigitChar_chars c
  rw [jsTrim_eq_self_of_all _ (fun ch hch => (hall ch hch).1),
    map_toLower_eq_self _ (fun ch hch => (hall ch hch).2)]

/-- The 3-digit hex branch: each digit is duplicated, so channel `d`
parses to `17 * d`. -/
theorem isWhiteColor_hex3 (a b c : Fin 16) :
    isWhiteColor (hexColorStr3 a.val b.val c.val) =
      decide (600 < 17 * a.val + 17 * b.val + 17 * c.val) := by
  simp only [isWhiteColor, hexColorStr3_norm a b c]
  rw [hexColorStr3]
  have ht1 : ([hexDigitChar a.val, hexDigitChar a.val, hexDigitChar b.val, hexDigitChar b.val,
      hexDigitChar c.val, hexDigitChar c.val] : Str).take 2 =
      [hexDigitChar a.val, hexDigitChar a.val] := rfl
  have hd2 : (([hexDigitChar a.val, hexDigitChar a.val, hexDigitChar b.val, hexDigitChar b.val,
      hexDigitChar c.val, hexDigitChar c.val] : Str).drop 2).take 2 =
      [hexDigitChar b.val, hexDigitChar b.val] := rfl
  have hd4 : ([hexDigitChar a.val, hexDigitChar a.val, hexDigitChar b.val, hexDigitChar b.val,
      hexDigitChar c.val, hexDigitChar c.val] : Str).drop 4 =
      [hexDigitChar c.val, hexDigitChar c.val] := rfl
  simp only [List.length_cons, List.length_nil, List.flatMap_cons, List.flatMap_nil,
    List.append_nil, List.cons_append, List.nil_append, if_true, ht1, hd2, hd4,
    hexPair_parse a, hexPair_parse b, hexPair_parse c]
  rw [decide_eq_decide]
  omega

def hash101010 : Str := ['#', '1', '0', '1', '0', '1', '0']

def argbS : String := "argb 255 255 255"

def tealS : String := "teal"

/-- C5 counterexample: the string argb 255 255 255 is not a 3/6-digit hex
color, not an rgb()/rgba() color, and not the white literal — per the
claim it should take the dark branch and yield a white outline — yet the
code classifies it as light (the sniff only checks that the string
contains rgb and at least three digit runs) and yields a black outline. -/
theorem outlineColor_counterexample :
    specRecognizedColor argbS.data = false ∧
      getInverseOutlineColor argbS.data = blackHex := by
  constructor
  · decide
  · decide

/-- C5 (amended): outline selection is a pure function of the text color
string. A 6-digit hex rendering, a 3-digit hex rendering (each digit
duplicated, so digit `d` gives channel `17 * d`), any string containing
the substring `rgb` with at least three decimal digit runs (the code's
sniff — not only `rgb()`/`rgba()` syntax, the channels being the first
three runs), and in particular a canonical `rgb(r, g, b)` rendering, all
yield a black outline exactly when the channel sum exceeds 600 (average
> 200); the literal `white` yields black; any color whose normalized form
does not start with `#`, does not contain `rgb`, and is not the word
`white` yields a white outline; and `#101010` yields a white outline. -/
theorem getInverseOutlineColor_spec :
    (∀ r g b : Fin 256, getInverseOutlineColor (hexColorStr r.val g.val b.val) =
      if 600 < r.val + g.val + b.val then blackHex else whiteHexUpper) ∧
    (∀ r g b : Fin 16, getInverseOutlineColor (hexColorStr3 r.val g.val b.val) =
      if 600 < 17 * r.val + 17 * g.val + 17 * b.val then blackHex else whiteHexUpper) ∧
    (∀ c : Str, ((jsTrim c).map Char.toLower).head? ≠ some '#' →
      containsSub rgbPat ((jsTrim c).map Char.toLower) = true →
      3 ≤ (digitRuns ((jsTrim c).map Char.toLower)).length →
      getInverseOutlineColor c =
        if 600 < decVal ((digitRuns ((jsTrim c).map Char.toLower)).getD 0 []) +
            decVal ((digitRuns ((jsTrim c).map Char.toLower)).getD 1 []) +
            decVal ((digitRuns ((jsTrim c).map Char.toLower)).getD 2 [])
          then blackHex else whiteHexUpper) ∧
    (∀ r g b : Fin 256, getInverseOutlineColor (rgbColorStr r.val g.val b.val) =
      if 600 < r.val + g.val + b.val then blackHex else whiteHexUpper) ∧
    getInverseOutlineColor whiteLit = blackHex ∧
    (∀ c : Str, ((jsTrim c).map Char.toLower).head? ≠ some '#' →
      containsSub rgbPat ((jsTrim c).map Char.toLower) = false →
      (jsTrim c).map Char.toLower ≠ whiteLit →
      getInverseOutlineColor c = whiteHexUpper) ∧
    getInverseOutlineColor hash101010 = whiteHexUpper := by
  refine ⟨?_, ?_, ?_, ?_, by decide, ?_, by decide⟩
  · intro r g b
    unfold getInverseOutlineColor
    rw [isWhiteColor_hex]
    simp only [decide_eq_true_eq]
  · intro r g b
    unfold getInverseOutlineColor
    rw [isWhiteColor_hex3]
    simp only [decide_eq_true_eq]
  · intro c h1 h2 h3
    unfold getInverseOutlineColor
    rw [isWhiteColor_rgb_case c ((jsTrim c).map Char.toLower) rfl h1 h2 h3]
    simp only [decide_eq_true_eq]
  · intro r g b
    unfold getInverseOutlineColor
    rw [isWhiteColor_rgb]
    simp only [decide_eq_true_eq]
  · intro c h1 h2 h3
    unfold getInverseOutlineColor
    rw [isWhiteColor_unrecognized c ((jsTrim c).map Char.toLower) rfl h1 h2 h3]
    simp

theorem getInverseOutlineColor_spec_witness :
    getInverseOutlineColor
        (hexColorStr (16 : Fin 256).val (16 : Fin 256).val (16 : Fin 256).val) =
      whiteHexUpper ∧
    getInverseOutlineColor (hexColorStr3 (15 : Fin 16).val (15 : Fin 16).val (8 : Fin 16).val) =
      blackHex ∧
    getInverseOutlineColor tealS.data = whiteHexUpper := by
  refine ⟨?_, ?_, ?_⟩
  · rw [getInverseOutlineColor_spec.1 16 16 16]
    decide
  · rw [getInverseOutlineColor_spec.2.1 15 15 8]
    decide
  · exact getInverseOutlineColor_spec.2.2.2.2.2.1 tealS.data (by decide) (by decide) (by decide)

/-!
Word-sequence lemmas: `wordsOf` interacts with whitespace insertion,
trimming and joining. These underpin the content-preservation claims.
-/

theorem wordsOfGo_append_ws (sp : Char) (hsp : isWS sp = true) (b : Str) :
    ∀ (a : Str) (cur : Str), wordsOfGo cur (a ++ sp :: b) = wordsOfGo cur a ++ wordsOfGo [] b := by
  intro a
  induction a with
  | nil =>
    intro cur
    by_cases hc : cur = []
    · subst hc
      simp [wordsOfGo, hsp]
    · simp [wordsOfGo, hsp, hc]
  | cons c a' ih =>
    intro cur
    by_cases hw : isWS c = true
    · by_cases hc : cur = []
      · subst hc
        simp only [List.cons_append, wordsOfGo, hw, if_true]
        exact ih []
      · simp only [List.cons_append, wordsOfGo, hw, if_true, hc, if_false, List.append_eq]
        rw [ih []]
    · simp only [List.cons_append, wordsOfGo, hw, Bool.false_eq_true, if_false]
      exact ih (cur ++ [c])

theorem wordsOf_append_ws (sp : Char) (hsp : isWS sp = true) (a b : Str) :
    wordsOf (a ++ sp :: b) = wordsOf a ++ wordsOf b :=
  wordsOfGo_append_ws sp hsp b a []

theorem wordsOf_cons_ws (c : Char) (s : Str) (h : isWS c = true) :
    wordsOf (c :: s) = wordsOf s := by
  show wordsOfGo [] (c :: s) = wordsOfGo [] s
  simp [wordsOfGo, h]

theorem wordsOf_all_ws (s : Str) (h : ∀ c ∈ s, isWS c = true) : wordsOf s = [] := by
  induction s with
  | nil => rfl
  | cons c cs ih =>
    rw [wordsOf_cons_ws c cs (h c (by simp))]
    exact ih (fun x hx => h x (by simp [hx]))

theorem wordsOf_append_all_ws (s t : Str) (h : ∀ c ∈ t, isWS c = true) :
    wordsOf (s ++ t) = wordsOf s := by
  cases t with
  | nil => rw [List.append_nil]
  | cons c t' =>
    rw [wordsOf_append_ws c (h c (by simp)) s t']
    rw [wordsOf_all_ws t' (fun x hx => h x (by simp [hx])), List.append_nil]

theorem wordsOf_dropWhile_ws (s : Str) : wordsOf (s.dropWhile isWS) = wordsOf s := by
  induction s with
  | nil => rfl
  | cons c cs ih =>
    by_cases h : isWS c = true
    · rw [List.dropWhile_cons, h, if_pos rfl, ih, wordsOf_cons_ws c cs h]
    · rw [List.dropWhile_cons]
      simp [h]

theorem jsTrim_decomp (x : Str) :
    ∃ t : Str, x.dropWhile isWS = jsTrim x ++ t ∧ ∀ c ∈ t, isWS c = true := by
  refine ⟨((x.dropWhile isWS).reverse.takeWhile isWS).reverse, ?_, ?_⟩
  · unfold jsTrim
    have h := List.takeWhile_append_dropWhile isWS (x.dropWhile isWS).reverse
    calc x.dropWhile isWS = (x.dropWhile isWS).reverse.reverse := by rw [List.reverse_reverse]
    _ = ((x.dropWhile isWS).reverse.takeWhile isWS ++
          (x.dropWhile isWS).reverse.dropWhile isWS).reverse := by rw [h]
    _ = _ := by rw [List.reverse_append]
  · intro c hc
    rw [List.mem_reverse] at hc
    exact List.mem_takeWhile_imp hc

theorem wordsOf_jsTrim (x : Str) : wordsOf (jsTrim x) = wordsOf x := by
  obtain ⟨t, ht, hws⟩ := jsTrim_decomp x
  have h1 : wordsOf (x.dropWhile isWS) = wordsOf (jsTrim x) := by
    rw [ht, wordsOf_append_all_ws _ _ hws]
  rw [← h1, wordsOf_dropWhile_ws]

theorem jsTrim_eq_nil_iff (x : Str) : jsTrim x = [] ↔ ∀ c ∈ x, isWS c = true := by
  constructor
  · intro h c hc
    obtain ⟨t, ht, hws⟩ := jsTrim_decomp x
    rw [h, List.nil_append] at ht
    have hx := List.takeWhile_append_dropWhile isWS x
    rw [← hx] at hc
    rcases List.mem_append.mp hc with h1 | h1
    · exact List.mem_takeWhile_imp h1
    · rw [ht] at h1
      exact hws c h1
  · intro h
    unfold jsTrim
    have h1 : x.dropWhile isWS = [] := List.dropWhile_eq_nil_iff.mpr h
    rw [h1]
    rfl

theorem wordsOf_joinSp : ∀ ss : List Str, wordsOf (joinSp ss) = ss.flatMap wordsOf := by
  intro ss
  induction ss with
  | nil => rfl
  | cons s rest ih =>
    cases rest with
    | nil => simp [joinSp, wordsOf]
    | cons r rest' =>
      show wordsOf (s ++ ' ' :: joinSp (r :: rest')) = _
      rw [wordsOf_append_ws ' ' (by decide), ih]
      simp

/-- The text consumed since `lastIndex` for each scanner state. -/
def stText : SentState → Str
  | .normal acc => acc
  | .run acc r => acc ++ r
  | .skip => []

/-- The sentence scanner loses no words: the concatenation of the word
sequences of its output pieces is the word sequence of the unscanned
text. -/
theorem sentGo_words : ∀ (rest : Str) (st : SentState),
    (sentGo st rest).flatMap wordsOf = wordsOf (stText st ++ rest) := by
  intro rest
  induction rest with
  | nil =>
    intro st
    cases st with
    | normal acc =>
      show (if jsTrim acc = [] then [] else [jsTrim acc]).flatMap wordsOf = wordsOf (acc ++ [])
      rw [List.append_nil]
      by_cases h : jsTrim acc = []
      · rw [if_pos h, wordsOf_all_ws acc ((jsTrim_eq_nil_iff acc).mp h)]
        rfl
      · rw [if_neg h]
        simp [wordsOf_jsTrim]
    | run acc r =>
      show (if jsTrim (acc ++ r) = [] then [] else [jsTrim (acc ++ r)]).flatMap wordsOf =
        wordsOf ((acc ++ r) ++ [])
      rw [List.append_nil]
      by_cases h : jsTrim (acc ++ r) = []
      · rw [if_pos h, wordsOf_all_ws (acc ++ r) ((jsTrim_eq_nil_iff (acc ++ r)).mp h)]
        rfl
      · rw [if_neg h]
        simp [wordsOf_jsTrim]
    | skip => rfl
  | cons c cs ih =>
    intro st
    cases st with
    | normal acc =>
      simp only [sentGo]
      by_cases hp : isSentPunct c = true
      · rw [if_pos hp, ih (.run acc [c])]
        simp [stText, List.append_assoc]
      · rw [if_neg hp, ih (.normal (acc ++ [c]))]
        simp [stText, List.append_assoc]
    | run acc r =>
      simp only [sentGo]
      by_cases hp : isSentPunct c = true
      · rw [if_pos hp, ih (.run acc (r ++ [c]))]
        simp [stText, List.append_assoc]
      · rw [if_neg hp]
        by_cases hw : isWS c = true
        · rw [if_pos hw]
          by_cases he : jsTrim (acc ++ r) = []
          · rw [if_pos he, ih .skip]
            have h0 : wordsOf (acc ++ r) = [] :=
              wordsOf_all_ws (acc ++ r) ((jsTrim_eq_nil_iff (acc ++ r)).mp he)
            simp only [stText, List.nil_append]
            rw [wordsOf_append_ws c hw, h0, List.nil_append]
          · rw [if_neg he]
            simp only [List.flatMap_cons]
            rw [ih .skip, wordsOf_jsTrim]
            simp only [stText, List.nil_append]
            rw [wordsOf_append_ws c hw]
        · rw [if_neg hw, ih (.normal (acc ++ r ++ [c]))]
          simp [stText, List.append_assoc]
    | skip =>
      simp only [sentGo]
      by_cases hw : isWS c = true
      · rw [if_pos hw, ih .skip]
        simp [stText, wordsOf_cons_ws c cs hw]
      · rw [if_neg hw]
        by_cases hp : isSentPunct c = true
        · rw [if_pos hp, ih (.run [] [c])]
          simp [stText]
        · rw [if_neg hp, ih (.normal [c])]
          simp [stText]

theorem flatMap_wordsOf_filter (l : List Str) :
    (l.filter (fun s => 0 < s.length)).flatMap wordsOf = l.flatMap wordsOf := by
  induction l with
  | nil => rfl
  | cons s rest ih =>
    by_cases h : s = []
    · subst h
      simpa [List.filter_cons] using ih
    · have hpos : 0 < s.length := List.length_pos.mpr h
      simp [List.filter_cons, hpos, ih]

/-- `splitIntoSentences` preserves the word sequence of its input. -/
theorem splitIntoSentences_words (t : Str) :
    (splitIntoSentences t).flatMap wordsOf = wordsOf t := by
  unfold splitIntoSentences
  rw [flatMap_wordsOf_filter, sentGo_words t (.normal [])]
  rfl

theorem wordsOfGo_ne_nil : ∀ (s : Str) (cur : Str),
    cur ≠ [] ∨ (∃ c ∈ s, isWS c = false) → wordsOfGo cur s ≠ [] := by
  intro s
  induction s with
  | nil =>
    intro cur h
    rcases h with h | ⟨c, hc, _⟩
    · simp [wordsOfGo, h]
    · simp at hc
  | cons c cs ih =>
    intro cur h
    by_cases hw : isWS c = true
    · have h2 : cur ≠ [] ∨ ∃ d ∈ cs, isWS d = false := by
        rcases h with h | ⟨d, hd, hdw⟩
        · exact Or.inl h
        · rcases List.mem_cons.mp hd with h3 | h3
          · subst h3
            rw [hw] at hdw
            simp at hdw
          · exact Or.inr ⟨d, h3, hdw⟩
      by_cases hc : cur = []
      · subst hc
        simp only [wordsOfGo, hw, if_true, if_pos rfl]
        rcases h2 with h3 | h3
        · exact absurd rfl h3
        · exact ih [] (Or.inr h3)
      · simp [wordsOfGo, hw, hc]
    · simp only [wordsOfGo, hw, Bool.false_eq_true, if_false]
      exact ih (cur ++ [c]) (Or.inl (by simp))

theorem wordsOf_ne_nil_of_trim (x : Str) (h : jsTrim x ≠ []) : wordsOf x ≠ [] := by
  apply wordsOfGo_ne_nil x []
  right
  by_contra hall
  push_neg at hall
  apply h
  rw [jsTrim_eq_nil_iff]
  intro c hc
  have := hall c hc
  cases h2 : isWS c
  · exact absurd h2 this
  · rfl

theorem splitIntoSentences_ne_nil (t : Str) (h : wordsOf t ≠ []) :
    splitIntoSentences t ≠ [] := by
  intro hc
  apply h
  rw [← splitIntoSentences_words t, hc]
  rfl

/-!
Goodness invariant: every slide the segmenter produces is nonempty and
starts with a non-whitespace character.
-/

def headNotWS (s : Str) : Bool :=
  match s with
  | [] => false
  | c :: _ => !isWS c

theorem dropWhile_head_false (p : Char → Bool) :
    ∀ (l : Str) (c : Char) (cs : Str), l.dropWhile p = c :: cs → p c = false := by
  intro l
  induction l with
  | nil =>
    intro c cs h
    simp [List.dropWhile] at h
  | cons a l' ih =>
    intro c cs h
    rw [List.dropWhile_cons] at h
    by_cases ha : p a = true
    · rw [ha, if_pos rfl] at h
      exact ih c cs h
    · rw [if_neg (by simp [ha])] at h
      cases h
      cases h2 : p a
      · rfl
      · exact absurd h2 ha

theorem headNotWS_jsTrim (x : Str) (h : jsTrim x ≠ []) : headNotWS (jsTrim x) = true := by
  obtain ⟨t, ht, _⟩ := jsTrim_decomp x
  cases hj : jsTrim x with
  | nil => exact absurd hj h
  | cons c cs =>
    rw [hj] at ht
    have hc : isWS c = false := dropWhile_head_false isWS x c (cs ++ t) (by rw [ht]; simp)
    simp [headNotWS, hc]

theorem sentGo_good : ∀ (rest : Str) (st : SentState),
    ∀ s ∈ sentGo st rest, headNotWS s = true := by
  intro rest
  induction rest with
  | nil =>
    intro st s hs
    cases st with
    | normal acc =>
      simp only [sentGo] at hs
      by_cases h : jsTrim acc = []
      · rw [if_pos h] at hs
        simp at hs
      · rw [if_neg h] at hs
        simp at hs
        subst hs
        exact headNotWS_jsTrim acc h
    | run acc r =>
      simp only [sentGo] at hs
      by_cases h : jsTrim (acc ++ r) = []
      · rw [if_pos h] at hs
        simp at hs
      · rw [if_neg h] at hs
        simp at hs
        subst hs
        exact headNotWS_jsTrim (acc ++ r) h
    | skip => simp [sentGo] at hs
  | cons c cs ih =>
    intro st s hs
    cases st with
    | normal acc =>
      simp only [sentGo] at hs
      by_cases hp : isSentPunct c = true
      · rw [if_pos hp] at hs
        exact ih (.run acc [c]) s hs
      · rw [if_neg hp] at hs
        exact ih (.normal (acc ++ [c])) s hs
    | run acc r =>
      simp only [sentGo] at hs
      by_cases hp : isSentPunct c = true
      · rw [if_pos hp] at hs
        exact ih (.run acc (r ++ [c])) s hs
      · rw [if_neg hp] at hs
        by_cases hw : isWS c = true
        · rw [if_pos hw] at hs
          by_cases he : jsTrim (acc ++ r) = []
          · rw [if_pos he] at hs
            exact ih .skip s hs
          · rw [if_neg he] at hs
            rcases List.mem_cons.mp hs with h1 | h1
            · subst h1
              exact headNotWS_jsTrim (acc ++ r) he
            · exact ih .skip s h1
        · rw [if_neg hw] at hs
          exact ih (.normal (acc ++ r ++ [c])) s hs
    | skip =>
      simp only [sentGo] at hs
      by_cases hw : isWS c = true
      · rw [if_pos hw] at hs
        exact ih .skip s hs
      · rw [if_neg hw] at hs
        by_cases hp : isSentPunct c = true
        · rw [if_pos hp] at hs
          exact ih (.run [] [c]) s hs
        · rw [if_neg hp] at hs
          exact ih (.normal [c]) s hs

theorem splitIntoSentences_good (t : Str) :
    ∀ s ∈ splitIntoSentences t, headNotWS s = true := by
  intro s hs
  unfold splitIntoSentences at hs
  exact sentGo_good t (.normal []) s (List.mem_of_mem_filter hs)

theorem splitWSGo_no_ws : ∀ (rest : Str) (inSep : Bool) (cur : Str),
    (∀ c ∈ cur, isWS c = false) →
    ∀ w ∈ splitWSGo inSep cur rest, ∀ c ∈ w, isWS c = false := by
  intro rest
  induction rest with
  | nil =>
    intro inSep cur hcur w hw
    simp only [splitWSGo] at hw
    simp at hw
    subst hw
    exact hcur
  | cons c cs ih =>
    intro inSep cur hcur w hw
    simp only [splitWSGo] at hw
    by_cases hc : isWS c = true
    · cases inSep with
      | true =>
        rw [if_pos rfl, if_pos hc] at hw
        exact ih true [] (by simp) w hw
      | false =>
        rw [if_neg (by simp), if_pos hc] at hw
        rcases List.mem_cons.mp hw with h1 | h1
        · subst h1
          exact hcur
        · exact ih true [] (by simp) w h1
    · cases inSep with
      | true =>
        rw [if_pos rfl, if_neg (by simp [hc])] at hw
        refine ih false [c] ?_ w hw
        intro d hd
        simp at hd
        subst hd
        simpa using hc
      | false =>
        rw [if_neg (by simp), if_neg (by simp [hc])] at hw
        refine ih false (cur ++ [c]) ?_ w hw
        intro d hd
        rcases List.mem_append.mp hd with h1 | h1
        · exact hcur d h1
        · simp at h1
          subst h1
          simpa using hc

theorem jsSplitWS_no_ws (s : Str) : ∀ w ∈ jsSplitWS s, ∀ c ∈ w, isWS c = false :=
  splitWSGo_no_ws s false [] (by simp)

theorem headNotWS_of_ws_free (w : Str) (h : ∀ c ∈ w, isWS c = false) (hne : w ≠ []) :
    headNotWS w = true := by
  cases w with
  | nil => exact absurd rfl hne
  | cons c cs => simp [headNotWS, h c (by simp)]

theorem headNotWS_append (cur x : Str) (h : cur ≠ []) :
    headNotWS (cur ++ x) = headNotWS cur := by
  cases cur with
  | nil => exact absurd rfl h
  | cons c cs => simp [headNotWS]

theorem wordsOfGo_ws_free : ∀ (s : Str) (cur : Str), (∀ c ∈ s, isWS c = false) →
    wordsOfGo cur s = if cur ++ s = [] then [] else [cur ++ s] := by
  intro s
  induction s with
  | nil =>
    intro cur h
    rw [List.append_nil]
    rfl
  | cons c cs ih =>
    intro cur h
    have hc : isWS c = false := h c (by simp)
    simp only [wordsOfGo, hc, Bool.false_eq_true, if_false]
    rw [ih (cur ++ [c]) (fun x hx => h x (by simp [hx]))]
    simp

theorem wordsOf_ws_free_le_one (s : Str) (h : ∀ c ∈ s, isWS c = false) :
    (wordsOf s).length ≤ 1 := by
  show (wordsOfGo [] s).length ≤ 1
  rw [wordsOfGo_ws_free s [] h]
  split_ifs <;> simp

theorem sbcGo_good : ∀ (words : List Str) (b : ℕ) (cur : Str) (chunks : List Str),
    (∀ w ∈ words, ∀ c ∈ w, isWS c = false) →
    (∀ s ∈ chunks, headNotWS s = true) →
    (cur = [] ∨ headNotWS cur = true) →
    ∀ s ∈ sbcGo b cur chunks words, headNotWS s = true := by
  intro words
  induction words with
  | nil =>
    intro b cur chunks _ hchunks hcur s hs
    simp only [sbcGo] at hs
    by_cases hc : cur = []
    · rw [if_pos hc] at hs
      exact hchunks s hs
    · rw [if_neg hc] at hs
      rcases List.mem_append.mp hs with h1 | h1
      · exact hchunks s h1
      · simp at h1
        subst h1
        rcases hcur with h2 | h2
        · exact absurd h2 hc
        · exact h2
  | cons w ws ih =>
    intro b cur chunks hwords hchunks hcur s hs
    have hw : ∀ c ∈ w, isWS c = false := hwords w (by simp)
    have hws : ∀ x ∈ ws, ∀ c ∈ x, isWS c = false := fun x hx => hwords x (by simp [hx])
    simp only [sbcGo] at hs
    set test := if cur = [] then w else cur ++ ' ' :: w with htest
    have htest_good : test = [] ∨ headNotWS test = true := by
      by_cases hc : cur = []
      · rw [htest, if_pos hc]
        by_cases hwe : w = []
        · exact Or.inl hwe
        · exact Or.inr (headNotWS_of_ws_free w hw hwe)
      · rw [htest, if_neg hc]
        rcases hcur with h2 | h2
        · exact absurd h2 hc
        · right
          rw [headNotWS_append cur (' ' :: w) hc]
          exact h2
    by_cases hlen : test.length ≤ b
    · rw [if_pos hlen] at hs
      exact ih b test chunks hws hchunks htest_good s hs
    · rw [if_neg hlen] at hs
      have hchunks' : ∀ x ∈ (if cur = [] then chunks else chunks ++ [cur]),
          headNotWS x = true := by
        intro x hx
        by_cases hc : cur = []
        · rw [if_pos hc] at hx
          exact hchunks x hx
        · rw [if_neg hc] at hx
          rcases List.mem_append.mp hx with h1 | h1
          · exact hchunks x h1
          · simp at h1
            subst h1
            rcases hcur with h2 | h2
            · exact absurd h2 hc
            · exact h2
      have hw_good : w = [] ∨ headNotWS w = true := by
        by_cases hwe : w = []
        · exact Or.inl hwe
        · exact Or.inr (headNotWS_of_ws_free w hw hwe)
      exact ih b w _ hws hchunks' hw_good s hs

theorem sbcGo_ne_nil : ∀ (words : List Str) (b : ℕ) (cur : Str) (chunks : List Str),
    (cur ≠ [] ∨ chunks ≠ [] ∨ ∃ w ∈ words, w ≠ []) →
    sbcGo b cur chunks words ≠ [] := by
  intro words
  induction words with
  | nil =>
    intro b cur chunks h
    simp only [sbcGo]
    rcases h with h | h | ⟨w, hw, _⟩
    · rw [if_neg h]
      simp
    · split_ifs <;> simp [h]
    · simp at hw
  | cons w ws ih =>
    intro b cur chunks h
    simp only [sbcGo]
    set test := if cur = [] then w else cur ++ ' ' :: w with htest
    by_cases hlen : test.length ≤ b
    · rw [if_pos hlen]
      apply ih
      rcases h with h | h | ⟨x, hx, hxe⟩
      · left
        rw [htest, if_neg h]
        simp
      · exact Or.inr (Or.inl h)
      · rcases List.mem_cons.mp hx with h1 | h1
        · subst h1
          left
          rw [htest]
          split_ifs with hc
          · exact hxe
          · simp
        · exact Or.inr (Or.inr ⟨x, h1, hxe⟩)
    · rw [if_neg hlen]
      apply ih
      by_cases hc : cur = []
      · rw [if_pos hc]
        left
        intro hwe
        rw [htest, if_pos hc, hwe] at hlen
        simp at hlen
      · right
        left
        rw [if_neg hc]
        simp

theorem sbcGo_chunk_bound : ∀ (words : List Str) (b : ℕ) (cur : Str) (chunks : List Str),
    (∀ w ∈ words, ∀ c ∈ w, isWS c = false) →
    (∀ s ∈ chunks, s.length ≤ b ∨ (wordsOf s).length ≤ 1) →
    (cur.length ≤ b ∨ (wordsOf cur).length ≤ 1) →
    ∀ s ∈ sbcGo b cur chunks words, s.length ≤ b ∨ (wordsOf s).length ≤ 1 := by
  intro words
  induction words with
  | nil =>
    intro b cur chunks _ hchunks hcur s hs
    simp only [sbcGo] at hs
    by_cases hc : cur = []
    · rw [if_pos hc] at hs
      exact hchunks s hs
    · rw [if_neg hc] at hs
      rcases List.mem_append.mp hs with h1 | h1
      · exact hchunks s h1
      · simp at h1
        subst h1
        exact hcur
  | cons w ws ih =>
    intro b cur chunks hwords hchunks hcur s hs
    have hw : ∀ c ∈ w, isWS c = false := hwords w (by simp)
    have hws : ∀ x ∈ ws, ∀ c ∈ x, isWS c = false := fun x hx => hwords x (by simp [hx])
    simp only [sbcGo] at hs
    set test := if cur = [] then w else cur ++ ' ' :: w with htest
    by_cases hlen : test.length ≤ b
    · rw [if_pos hlen] at hs
      exact ih b test chunks hws hchunks (Or.inl hlen) s hs
    · rw [if_neg hlen] at hs
      have hchunks' : ∀ x ∈ (if cur = [] then chunks else chunks ++ [cur]),
          x.length ≤ b ∨ (wordsOf x).length ≤ 1 := by
        intro x hx
        by_cases hc : cur = []
        · rw [if_pos hc] at hx
          exact hchunks x hx
        · rw [if_neg hc] at hx
          rcases List.mem_append.mp hx with h1 | h1
          · exact hchunks x h1
          · simp at h1
            subst h1
            exact hcur
      exact ih b w _ hws hchunks' (Or.inr (wordsOf_ws_free_le_one w hw)) s hs

theorem splitWSGo_mem_nonempty : ∀ (rest : Str) (cur : Str), cur ≠ [] →
    ∃ w ∈ splitWSGo false cur rest, w ≠ [] := by
  intro rest
  induction rest with
  | nil =>
    intro cur h
    exact ⟨cur, by simp [splitWSGo], h⟩
  | cons c cs ih =>
    intro cur h
    by_cases hc : isWS c = true
    · refine ⟨cur, ?_, h⟩
      simp only [splitWSGo, if_neg (by simp : ¬ false = true), hc, if_pos rfl]
      simp
    · obtain ⟨w, hw, hwe⟩ := ih (cur ++ [c]) (by simp)
      refine ⟨w, ?_, hwe⟩
      simp only [splitWSGo, if_neg (by simp : ¬ false = true), hc]
      simpa using hw

theorem splitByCharacterCount_good (s : Str) (b : ℕ) :
    ∀ ch ∈ splitByCharacterCount s b, headNotWS ch = true :=
  sbcGo_good (jsSplitWS s) b [] [] (jsSplitWS_no_ws s) (by simp) (Or.inl rfl)

theorem splitByCharacterCount_ne_nil (s : Str) (b : ℕ) (h : headNotWS s = true) :
    splitByCharacterCount s b ≠ [] := by
  apply sbcGo_ne_nil
  right
  right
  cases s with
  | nil => simp [headNotWS] at h
  | cons c cs =>
    have hc : isWS c = false := by
      simp [headNotWS] at h
      simpa using h
    have : jsSplitWS (c :: cs) = splitWSGo false [c] cs := by
      simp [jsSplitWS, splitWSGo, hc]
    rw [this]
    exact splitWSGo_mem_nonempty cs [c] (by simp)

theorem splitByCharacterCount_chunk (s : Str) (b : ℕ) :
    ∀ ch ∈ splitByCharacterCount s b, ch.length ≤ b ∨ (wordsOf ch).length ≤ 1 :=
  sbcGo_chunk_bound (jsSplitWS s) b [] [] (jsSplitWS_no_ws s) (by simp) (Or.inl (by simp))

theorem isClausePunct_not_ws (c : Char) (h : isClausePunct c = true) : isWS c = false := by
  simp only [isClausePunct, Bool.or_eq_true, decide_eq_true_eq] at h
  rcases h with ((((h | h) | h) | h) | h) <;> subst h <;> decide

theorem jsTrim_snoc_ne_nil (acc : Str) (c : Char) (hc : isWS c = false) :
    jsTrim (acc ++ [c]) ≠ [] := by
  intro h
  have := (jsTrim_eq_nil_iff (acc ++ [c])).mp h c (by simp)
  rw [hc] at this
  exact absurd this (by simp)

theorem slsGo_good : ∀ (rest : Str) (maxChars : ℕ) (skipping : Bool) (cur : Str)
    (segs : List Str) (acc : Str),
    (∀ s ∈ segs, headNotWS s = true) → (cur = [] ∨ headNotWS cur = true) →
    ∀ s ∈ slsGo maxChars skipping cur segs acc rest, headNotWS s = true := by
  intro rest
  induction rest with
  | nil =>
    intro maxChars skipping cur segs acc hsegs hcur s hs
    simp only [slsGo] at hs
    by_cases hc : cur = []
    · rw [if_pos hc] at hs
      by_cases hr : jsTrim acc = []
      · rw [if_pos hr] at hs
        exact hsegs s hs
      · rw [if_neg hr] at hs
        rcases List.mem_append.mp hs with h1 | h1
        · exact hsegs s h1
        · simp at h1
          subst h1
          exact headNotWS_jsTrim acc hr
    · rw [if_neg hc] at hs
      have hcg : headNotWS cur = true := by
        rcases hcur with h2 | h2
        · exact absurd h2 hc
        · exact h2
      by_cases hfit : (cur ++ ' ' :: jsTrim acc).length ≤ maxChars
      · rw [if_pos hfit] at hs
        rcases List.mem_append.mp hs with h1 | h1
        · exact hsegs s h1
        · simp at h1
          subst h1
          rw [headNotWS_append cur _ hc]
          exact hcg
      · rw [if_neg hfit] at hs
        rcases List.mem_append.mp hs with h1 | h1
        · rcases List.mem_append.mp h1 with h2 | h2
          · exact hsegs s h2
          · simp at h2
            subst h2
            exact hcg
        · by_cases hr : jsTrim acc = []
          · rw [if_pos hr] at h1
            simp at h1
          · rw [if_neg hr] at h1
            simp at h1
            subst h1
            exact headNotWS_jsTrim acc hr
  | cons c cs ih =>
    intro maxChars skipping cur segs acc hsegs hcur s hs
    simp only [slsGo] at hs
    by_cases hskip : (skipping = true ∧ isWS c = true)
    · rw [if_pos hskip] at hs
      exact ih maxChars true cur segs acc hsegs hcur s hs
    · rw [if_neg hskip] at hs
      by_cases hp : isClausePunct c = true
      · rw [if_pos hp] at hs
        have hseg : headNotWS (jsTrim (acc ++ [c])) = true :=
          headNotWS_jsTrim _ (jsTrim_snoc_ne_nil acc c (isClausePunct_not_ws c hp))
        by_cases hfit : (cur ++ ' ' :: jsTrim (acc ++ [c])).length ≤ maxChars
        · rw [if_pos hfit] at hs
          refine ih maxChars true _ segs [] hsegs ?_ s hs
          right
          by_cases hc : cur = []
          · rw [if_pos hc]
            exact hseg
          · rw [if_neg hc, headNotWS_append cur _ hc]
            rcases hcur with h2 | h2
            · exact absurd h2 hc
            · exact h2
        · rw [if_neg hfit] at hs
          refine ih maxChars true _ _ [] ?_ (Or.inr hseg) s hs
          intro x hx
          by_cases hc : cur = []
          · rw [if_pos hc] at hx
            exact hsegs x hx
          · rw [if_neg hc] at hx
            rcases List.mem_append.mp hx with h1 | h1
            · exact hsegs x h1
            · simp at h1
              subst h1
              rcases hcur with h2 | h2
              · exact absurd h2 hc
              · exact h2
      · rw [if_neg hp] at hs
        exact ih maxChars false cur segs (acc ++ [c]) hsegs hcur s hs

theorem splitLongSentence_ne_nil (s : Str) (b : ℕ) : splitLongSentence s b ≠ [] := by
  unfold splitLongSentence
  by_cases h1 : s.length ≤ b
  · rw [if_pos h1]
    simp
  · rw [if_neg h1]
    by_cases h2 : slsGo b false [] [] [] s = []
    · rw [if_pos h2]
      simp
    · rw [if_neg h2]
      exact h2

theorem splitLongSentence_good (s : Str) (b : ℕ) (h : headNotWS s = true) :
    ∀ x ∈ splitLongSentence s b, headNotWS x = true := by
  intro x hx
  unfold splitLongSentence at hx
  by_cases h1 : s.length ≤ b
  · rw [if_pos h1] at hx
    simp at hx
    subst hx
    exact h
  · rw [if_neg h1] at hx
    by_cases h2 : slsGo b false [] [] [] s = []
    · rw [if_pos h2] at hx
      simp at hx
      subst hx
      exact h
    · rw [if_neg h2] at hx
      exact slsGo_good s b false [] [] [] (by simp) (Or.inl rfl) x hx

theorem flatMap_ne_nil (f : Str → List Str) (l : List Str) (hl : l ≠ [])
    (hf : ∀ x ∈ l, f x ≠ []) : l.flatMap f ≠ [] := by
  cases l with
  | nil => exact absurd rfl hl
  | cons a rest =>
    simp only [List.flatMap_cons]
    intro hc
    rcases List.append_eq_nil.mp hc with ⟨h1, _⟩
    exact hf a (by simp) h1

theorem candidateSlides_good (text : Str) (opts : SplitOptions) :
    ∀ s ∈ candidateSlides text opts, headNotWS s = true := by
  intro s hs
  unfold candidateSlides at hs
  rw [List.mem_flatMap] at hs
  obtain ⟨p, hp, hsp⟩ := hs
  rw [List.mem_flatMap] at hp
  obtain ⟨q, hq, hpq⟩ := hp
  have hq_good : headNotWS q = true := splitIntoSentences_good _ q hq
  have hp_good : headNotWS p = true := by
    by_cases h : opts.maxCharsPerSlide < q.length
    · rw [if_pos h] at hpq
      exact splitLongSentence_good q _ hq_good p hpq
    · rw [if_neg h] at hpq
      simp at hpq
      subst hpq
      exact hq_good
  by_cases h : opts.maxCharsPerSlide < p.length
  · rw [if_pos h] at hsp
    exact splitByCharacterCount_good p _ s hsp
  · rw [if_neg h] at hsp
    simp at hsp
    subst hsp
    exact hp_good

theorem candidateSlides_ne_nil (text : Str) (opts : SplitOptions) (h : jsTrim text ≠ []) :
    candidateSlides text opts ≠ [] := by
  have hsent : splitIntoSentences (jsTrim text) ≠ [] := by
    apply splitIntoSentences_ne_nil
    rw [wordsOf_jsTrim]
    exact wordsOf_ne_nil_of_trim text h
  have hproc : (splitIntoSentences (jsTrim text)).flatMap
      (fun s => if opts.maxCharsPerSlide < s.length
        then splitLongSentence s opts.maxCharsPerSlide else [s]) ≠ [] := by
    apply flatMap_ne_nil _ _ hsent
    intro x hx
    by_cases hl : opts.maxCharsPerSlide < x.length
    · rw [if_pos hl]
      exact splitLongSentence_ne_nil x _
    · rw [if_neg hl]
      simp
  unfold candidateSlides
  apply flatMap_ne_nil _ _ hproc
  intro x hx
  have hx_good : headNotWS x = true := by
    rw [List.mem_flatMap] at hx
    obtain ⟨q, hq, hxq⟩ := hx
    have hq_good := splitIntoSentences_good _ q hq
    by_cases hl : opts.maxCharsPerSlide < q.length
    · rw [if_pos hl] at hxq
      exact splitLongSentence_good q _ hq_good x hxq
    · rw [if_neg hl] at hxq
      simp at hxq
      subst hxq
      exact hq_good
  by_cases hl : opts.maxCharsPerSlide < x.length
  · rw [if_pos hl]
    exact splitByCharacterCount_ne_nil x _ hx_good
  · rw [if_neg hl]
    simp

theorem argmaxIdx_lt (e : List Str) (h : e ≠ []) : argmaxIdx e < e.length := by
  unfold argmaxIdx
  have hgen : ∀ (l : List (ℕ × Str)) (init : ℕ), init < e.length →
      (∀ p ∈ l, p.1 < e.length) →
      l.foldl (fun best p => if (e.getD best []).length < p.2.length then p.1 else best) init <
        e.length := by
    intro l
    induction l with
    | nil => intro init h1 _; exact h1
    | cons p l' ih =>
      intro init h1 h2
      simp only [List.foldl_cons]
      apply ih
      · by_cases hc : (e.getD init []).length < p.2.length
        · rw [if_pos hc]
          exact h2 p (by simp)
        · rw [if_neg hc]
          exact h1
      · intro q hq
        exact h2 q (by simp [hq])
  apply hgen
  · exact List.length_pos.mpr h
  · intro p hp
    exact List.fst_lt_of_mem_enum hp

theorem getD_mem (e : List Str) (i : ℕ) (h : i < e.length) : e.getD i [] ∈ e := by
  rw [List.getD_eq_getElem e [] h]
  exact List.getElem_mem h

theorem expandLoop_step (mins fuel : ℕ) (e : List Str)
    (hcond : e.length < mins ∧ 0 < e.length)
    (hbig : 50 < (e.getD (argmaxIdx e) []).length) :
    expandLoop mins (fuel + 1) e = expandLoop mins fuel
      (spliceAt e (argmaxIdx e) (splitByCharacterCount (e.getD (argmaxIdx e) [])
        (jsCeilDiv (e.getD (argmaxIdx e) []).length 2))) := by
  conv_lhs => rw [expandLoop]
  rw [if_pos hcond, if_pos hbig]

theorem expandLoop_exit (mins fuel : ℕ) (e : List Str)
    (h : ¬(e.length < mins ∧ 0 < e.length) ∨
      ¬(50 < (e.getD (argmaxIdx e) []).length)) :
    expandLoop mins fuel e = some e := by
  rw [expandLoop]
  rcases h with h | h
  · rw [if_neg h]
  · by_cases hcond : e.length < mins ∧ 0 < e.length
    · rw [if_pos hcond, if_neg h]
    · rw [if_neg hcond]

theorem expandLoop_zero (mins : ℕ) (e : List Str)
    (hcond : e.length < mins ∧ 0 < e.length)
    (hbig : 50 < (e.getD (argmaxIdx e) []).length) :
    expandLoop mins 0 e = none := by
  rw [expandLoop]
  rw [if_pos hcond, if_pos hbig]

/-- Any invariant preserved by the bisection step holds of the loop's
result. -/
theorem expandLoop_some_inv (P : List Str → Prop) (mins : ℕ)
    (hstep : ∀ e, P e → (e.length < mins ∧ 0 < e.length) →
      50 < (e.getD (argmaxIdx e) []).length →
      P (spliceAt e (argmaxIdx e) (splitByCharacterCount (e.getD (argmaxIdx e) [])
        (jsCeilDiv (e.getD (argmaxIdx e) []).length 2)))) :
    ∀ (fuel : ℕ) (e l : List Str), P e → expandLoop mins fuel e = some l → P l := by
  intro fuel
  induction fuel with
  | zero =>
    intro e l hP h
    by_cases hcond : e.length < mins ∧ 0 < e.length
    · by_cases hbig : 50 < (e.getD (argmaxIdx e) []).length
      · rw [expandLoop_zero mins e hcond hbig] at h
        cases h
      · rw [expandLoop_exit mins 0 e (Or.inr hbig)] at h
        cases h
        exact hP
    · rw [expandLoop_exit mins 0 e (Or.inl hcond)] at h
      cases h
      exact hP
  | succ fuel ih =>
    intro e l hP h
    by_cases hcond : e.length < mins ∧ 0 < e.length
    · by_cases hbig : 50 < (e.getD (argmaxIdx e) []).length
      · rw [expandLoop_step mins fuel e hcond hbig] at h
        exact ih _ l (hstep e hP hcond hbig) h
      · rw [expandLoop_exit mins (fuel + 1) e (Or.inr hbig)] at h
        cases h
        exact hP
    · rw [expandLoop_exit mins (fuel + 1) e (Or.inl hcond)] at h
      cases h
      exact hP

theorem spliceAt_good (e : List Str) (i : ℕ) (pieces : List Str)
    (he : ∀ s ∈ e, headNotWS s = true) (hp : ∀ s ∈ pieces, headNotWS s = true) :
    ∀ s ∈ spliceAt e i pieces, headNotWS s = true := by
  intro s hs
  unfold spliceAt at hs
  rcases List.mem_append.mp hs with h1 | h1
  · rcases List.mem_append.mp h1 with h2 | h2
    · exact he s (List.mem_of_mem_take h2)
    · exact hp s h2
  · exact he s (List.mem_of_mem_drop h1)

theorem expandLoop_good_ne_nil (mins : ℕ) (fuel : ℕ) (e l : List Str)
    (hgood : ∀ s ∈ e, headNotWS s = true) (hne : e ≠ [])
    (h : expandLoop mins fuel e = some l) :
    (∀ s ∈ l, headNotWS s = true) ∧ l ≠ [] := by
  refine expandLoop_some_inv
    (fun x => (∀ s ∈ x, headNotWS s = true) ∧ x ≠ []) mins ?_ fuel e l ⟨hgood, hne⟩ h
  intro x ⟨hg, hn⟩ hcond hbig
  have hmem : x.getD (argmaxIdx x) [] ∈ x := getD_mem x _ (argmaxIdx_lt x hn)
  have hlg : headNotWS (x.getD (argmaxIdx x) []) = true := hg _ hmem
  have hpieces := splitByCharacterCount_good (x.getD (argmaxIdx x) [])
    (jsCeilDiv (x.getD (argmaxIdx x) []).length 2)
  constructor
  · exact spliceAt_good x _ _ hg hpieces
  · unfold spliceAt
    intro hc
    rcases List.append_eq_nil.mp hc with ⟨h1, _⟩
    rcases List.append_eq_nil.mp h1 with ⟨_, h2⟩
    exact splitByCharacterCount_ne_nil _ _ hlg h2

theorem expandFirstPass_foldl_good (mins target : ℕ) :
    ∀ (slides acc : List Str), (∀ s ∈ acc, headNotWS s = true) →
      (∀ s ∈ slides, headNotWS s = true) →
      ∀ s ∈ slides.foldl
        (fun acc slide =>
          if 100 < slide.length ∧ acc.length + target ≤ mins then
            acc ++ splitByCharacterCount slide (jsCeilDiv slide.length target)
          else acc ++ [slide]) acc, headNotWS s = true := by
  intro slides
  induction slides with
  | nil => intro acc hacc _ s hs; exact hacc s hs
  | cons a rest ih =>
    intro acc hacc hsl
    simp only [List.foldl_cons]
    apply ih
    · intro s hs
      by_cases hc : 100 < a.length ∧ acc.length + target ≤ mins
      · rw [if_pos hc] at hs
        rcases List.mem_append.mp hs with h1 | h1
        · exact hacc s h1
        · exact splitByCharacterCount_good a _ s h1
      · rw [if_neg hc] at hs
        rcases List.mem_append.mp hs with h1 | h1
        · exact hacc s h1
        · simp at h1
          rw [h1]
          exact hsl a (by simp)
    · intro s hs
      exact hsl s (by simp [hs])

theorem expandFirstPass_foldl_len (mins target : ℕ) :
    ∀ (slides acc : List Str), (∀ s ∈ slides, headNotWS s = true) →
      acc.length + slides.length ≤ (slides.foldl
        (fun acc slide =>
          if 100 < slide.length ∧ acc.length + target ≤ mins then
            acc ++ splitByCharacterCount slide (jsCeilDiv slide.length target)
          else acc ++ [slide]) acc).length := by
  intro slides
  induction slides with
  | nil => intro acc _; simp
  | cons a rest ih =>
    intro acc hsl
    simp only [List.foldl_cons]
    have hstep : acc.length + 1 ≤
        (if 100 < a.length ∧ acc.length + target ≤ mins then
          acc ++ splitByCharacterCount a (jsCeilDiv a.length target)
        else acc ++ [a]).length := by
      by_cases hc : 100 < a.length ∧ acc.length + target ≤ mins
      · rw [if_pos hc, List.length_append]
        have hne := splitByCharacterCount_ne_nil a (jsCeilDiv a.length target)
          (hsl a (by simp))
        have := List.length_pos.mpr hne
        omega
      · rw [if_neg hc, List.length_append]
        simp
    have hrest := ih
      (if 100 < a.length ∧ acc.length + target ≤ mins then
        acc ++ splitByCharacterCount a (jsCeilDiv a.length target)
      else acc ++ [a])
      (fun s hs => hsl s (by simp [hs]))
    simp only [List.length_cons]
    omega

theorem expandFirstPass_good (mins target : ℕ) (slides : List Str)
    (hsl : ∀ s ∈ slides, headNotWS s = true) :
    ∀ s ∈ expandFirstPass mins target slides, headNotWS s = true := by
  unfold expandFirstPass
  exact expandFirstPass_foldl_good mins target slides [] (by simp) hsl

theorem expandFirstPass_ne_nil (mins target : ℕ) (slides : List Str)
    (hne : slides ≠ []) (hsl : ∀ s ∈ slides, headNotWS s = true) :
    expandFirstPass mins target slides ≠ [] := by
  have h := expandFirstPass_foldl_len mins target slides [] hsl
  have h2 : 0 < slides.length := List.length_pos.mpr hne
  unfold expandFirstPass
  intro hc
  rw [hc] at h
  simp only [List.length_nil] at h
  omega

theorem adjustSlideCountFuel_bounds (fuel : ℕ) (slides : List Str) (mins maxs : ℕ)
    (l : List Str) (hne : slides ≠ []) (hgood : ∀ s ∈ slides, headNotWS s = true)
    (hmax : 1 ≤ maxs) (h : adjustSlideCountFuel fuel slides mins maxs = some l) :
    1 ≤ l.length ∧ l.length ≤ maxs := by
  unfold adjustSlideCountFuel at h
  rw [if_neg hne] at h
  by_cases h2 : maxs < slides.length
  · rw [if_pos h2] at h
    have hl := Option.some.inj h
    subst hl
    have hn : 0 < slides.length := List.length_pos.mpr hne
    have hstep : 0 < jsCeilDiv slides.length maxs := jsCeilDiv_pos _ _ (by omega) hn
    have hml : (mergeSlides slides maxs).length =
        jsCeilDiv slides.length (jsCeilDiv slides.length maxs) := by
      unfold mergeSlides
      rw [List.length_map, chunksOf_length _ hstep]
    have hpos : 0 < jsCeilDiv slides.length (jsCeilDiv slides.length maxs) :=
      jsCeilDiv_pos _ _ hstep hn
    constructor
    · rw [List.length_take, hml]
      omega
    · rw [List.length_take]
      omega
  · rw [if_neg h2] at h
    by_cases h3 : slides.length < mins
    · rw [if_pos h3] at h
      have h' : (expandLoop mins fuel
          (expandFirstPass mins (jsCeilDiv mins slides.length) slides)).map
          (fun e => e.take maxs) = some l := h
      rcases Option.map_eq_some'.mp h' with ⟨e, he, hel⟩
      have hfp_good := expandFirstPass_good mins (jsCeilDiv mins slides.length) slides hgood
      have hfp_ne := expandFirstPass_ne_nil mins (jsCeilDiv mins slides.length) slides hne hgood
      have hres := expandLoop_good_ne_nil mins fuel _ e hfp_good hfp_ne he
      subst hel
      have hepos : 0 < e.length := List.length_pos.mpr hres.2
      constructor
      · rw [List.length_take]
        omega
      · rw [List.length_take]
        omega
    · rw [if_neg h3] at h
      have hl := Option.some.inj h
      subst hl
      exact ⟨List.length_pos.mpr hne, by omega⟩

def helloS : String := "Hello world. This is a test! Short."

def hiS : String := "Hi"

/-- Counterexample to C1: on the input "Hello world. This is a test! Short."
with the default options, `splitStory` returns 3 segments, not 8 — the
expansion loop stops as soon as every segment is at most 50 characters, so
it never reaches `minSlides` here. -/
theorem splitStory_hello_counterexample :
    (splitStoryFuel 9 helloS.data DEFAULT_OPTIONS).map List.length = some 3 ∧
      (some 3 : Option ℕ) ≠ some 8 := by
  constructor
  · decide
  · decide

/-- C1 (amended): for every input whose trimmed form is non-empty, whenever
`splitStory` terminates under the default options it returns between 1 and
20 segments (the lower bound 8 of the original claim does not hold), and
on the input "Hello world. This is a test! Short." it returns exactly 3
segments (not 8). -/
theorem splitStory_count_bounds :
    (∀ (text : Str) (fuel : ℕ) (l : List Str), jsTrim text ≠ [] →
      splitStoryFuel fuel text DEFAULT_OPTIONS = some l →
      1 ≤ l.length ∧ l.length ≤ 20) ∧
    (splitStoryFuel 9 helloS.data DEFAULT_OPTIONS).map List.length = some 3 := by
  constructor
  · intro text fuel l htrim h
    unfold splitStoryFuel at h
    rw [if_neg htrim] at h
    have hcand_ne := candidateSlides_ne_nil text DEFAULT_OPTIONS htrim
    have hcand_good := candidateSlides_good text DEFAULT_OPTIONS
    exact adjustSlideCountFuel_bounds fuel _ _ _ l hcand_ne hcand_good (by decide) h
  · decide

/-- Witness for C1: the bounds theorem applied to the concrete input "Hi"
with fuel 9, whose result is the single segment "Hi". -/
theorem splitStory_count_bounds_witness :
    1 ≤ ([['H', 'i']] : List Str).length ∧ ([['H', 'i']] : List Str).length ≤ 20 :=
  splitStory_count_bounds.1 hiS.data 9 [['H', 'i']] (by decide) (by decide)

def aaaWord : Str := List.replicate 60 'a'

theorem expandLoop_aaa (fuel : ℕ) : expandLoop 8 fuel [aaaWord] = none := by
  induction fuel with
  | zero => exact expandLoop_zero 8 [aaaWord] (by decide) (by decide)
  | succ g ih =>
    rw [expandLoop_step 8 g [aaaWord] (by decide) (by decide)]
    have hsplice : spliceAt [aaaWord] (argmaxIdx [aaaWord])
        (splitByCharacterCount (([aaaWord] : List Str).getD (argmaxIdx [aaaWord]) [])
          (jsCeilDiv (([aaaWord] : List Str).getD (argmaxIdx [aaaWord]) []).length 2)) =
        [aaaWord] := by decide
    rw [hsplice]
    exact ih

/-- C9 is a code bug: on a single unbreakable 60-character word the
expansion `while` loop of `adjustSlideCount` never terminates — the
bisection `splitByCharacterCount` returns the word unchanged, the splice is
a no-op, and the loop condition stays true — so `splitStory` does not
return at all on this non-empty input: the fuelled model yields `none` for
every fuel. -/
theorem splitStory_diverges (fuel : ℕ) :
    splitStoryFuel fuel aaaWord DEFAULT_OPTIONS = none := by
  unfold splitStoryFuel
  rw [if_neg (by decide : ¬ jsTrim aaaWord = [])]
  rw [(by decide : candidateSlides aaaWord DEFAULT_OPTIONS = [aaaWord])]
  unfold adjustSlideCountFuel
  rw [if_neg (by decide : ¬ ([aaaWord] : List Str) = [])]
  rw [if_neg (by decide : ¬ DEFAULT_OPTIONS.maxSlides < ([aaaWord] : List Str).length)]
  rw [if_pos (by decide : ([aaaWord] : List Str).length < DEFAULT_OPTIONS.minSlides)]
  show (expandLoop DEFAULT_OPTIONS.minSlides fuel
      (expandFirstPass DEFAULT_OPTIONS.minSlides
        (jsCeilDiv DEFAULT_OPTIONS.minSlides ([aaaWord] : List Str).length) [aaaWord])).map
      (fun e => e.take DEFAULT_OPTIONS.maxSlides) = none
  rw [(by decide : expandFirstPass DEFAULT_OPTIONS.minSlides
      (jsCeilDiv DEFAULT_OPTIONS.minSlides ([aaaWord] : List Str).length) [aaaWord] =
      [aaaWord])]
  have h8 : expandLoop DEFAULT_OPTIONS.minSlides fuel [aaaWord] = none := expandLoop_aaa fuel
  rw [h8]
  rfl

/-- Witness for C9: the divergence theorem at fuel 0. -/
theorem splitStory_diverges_witness :
    splitStoryFuel 0 aaaWord DEFAULT_OPTIONS = none :=
  splitStory_diverges 0

theorem chunksOfGo_flatten {α : Type} (step : ℕ) (hstep : 0 < step) :
    ∀ (b : ℕ) (l : List α), l.length ≤ b → (chunksOfGo step b l).flatten = l := by
  intro b
  induction b with
  | zero =>
    intro l hl
    cases l with
    | nil => rfl
    | cons a r => simp at hl
  | succ b ih =>
    intro l hl
    cases l with
    | nil => rfl
    | cons a r =>
      show ((a :: r).take step :: chunksOfGo step b ((a :: r).drop step)).flatten = a :: r
      rw [List.flatten_cons]
      have hd : ((a :: r).drop step).length ≤ b := by
        rw [List.length_drop]
        simp only [List.length_cons] at hl ⊢
        omega
      rw [ih ((a :: r).drop step) hd]
      exact List.take_append_drop step (a :: r)

theorem chunksOf_flatten {α : Type} (step : ℕ) (hstep : 0 < step) (l : List α) :
    (chunksOf step l).flatten = l := by
  rw [chunksOf, if_neg (by omega : ¬ step = 0)]
  exact chunksOfGo_flatten step hstep l.length l le_rfl

theorem flatMap_joinSp_words : ∀ chunks : List (List Str),
    (chunks.map joinSp).flatMap wordsOf = chunks.flatten.flatMap wordsOf := by
  intro chunks
  induction chunks with
  | nil => rfl
  | cons c rest ih =>
    simp only [List.map_cons, List.flatMap_cons, List.flatten_cons, List.flatMap_append,
      wordsOf_joinSp, ih]

theorem mergeSlides_words (slides : List Str) (maxs : ℕ)
    (hstep : 0 < jsCeilDiv slides.length maxs) :
    (mergeSlides slides maxs).flatMap wordsOf = slides.flatMap wordsOf := by
  unfold mergeSlides
  rw [flatMap_joinSp_words, chunksOf_flatten _ hstep]

theorem flatMap_if_id (m : ℕ) (f : Str → List Str) :
    ∀ l : List Str, (∀ s ∈ l, ¬ m < s.length) →
      l.flatMap (fun s => if m < s.length then f s else [s]) = l := by
  intro l
  induction l with
  | nil => intro _; rfl
  | cons a rest ih =>
    intro h
    simp only [List.flatMap_cons]
    rw [if_neg (h a (by simp)), ih (fun s hs => h s (by simp [hs]))]
    rfl

theorem candidateSlides_of_short (text : Str) (opts : SplitOptions)
    (h : ∀ s ∈ splitIntoSentences (jsTrim text), ¬ opts.maxCharsPerSlide < s.length) :
    candidateSlides text opts = splitIntoSentences (jsTrim text) := by
  unfold candidateSlides
  show (((splitIntoSentences (jsTrim text)).flatMap
      (fun s => if opts.maxCharsPerSlide < s.length
        then splitLongSentence s opts.maxCharsPerSlide else [s])).flatMap
      (fun s => if opts.maxCharsPerSlide < s.length
        then splitByCharacterCount s opts.maxCharsPerSlide else [s])) =
    splitIntoSentences (jsTrim text)
  rw [flatMap_if_id opts.maxCharsPerSlide
    (fun s => splitLongSentence s opts.maxCharsPerSlide) _ h]
  exact flatMap_if_id opts.maxCharsPerSlide
    (fun s => splitByCharacterCount s opts.maxCharsPerSlide) _ h

def c2S : String := "aaaaaa,bbbbb"

def c2aS : String := "aaaaaa,"

def c2bS : String := "bbbbb"

def c2wS : String := "aa bb."

/-- Counterexample to C2: under maxCharsPerSlide = 10, the input
"aaaaaa,bbbbb" (a single 12-character word) is cut by `splitLongSentence`
at its internal comma, so the output's word sequence ["aaaaaa,", "bbbbb"]
differs from the trimmed original's word sequence ["aaaaaa,bbbbb"]. -/
theorem splitStory_words_counterexample :
    splitStoryFuel 9 c2S.data ⟨10, 1, 20⟩ = some [c2aS.data, c2bS.data] ∧
      wordsOf (joinSp [c2aS.data, c2bS.data]) ≠ wordsOf (jsTrim c2S.data) := by
  constructor
  · decide
  · decide

/-- C2 (amended): joining the returned segments reproduces the trimmed
input's word sequence provided every sentence fits in `maxCharsPerSlide`
(so the long-sentence splitters, which can cut inside words, are not
invoked), the sentence count is at least `minSlides` (so the expansion
loop, whose truncation can drop content, is not invoked), and
`maxSlides` is positive; this covers both the identity branch and the
merge branch of `adjustSlideCount`. Without these side conditions the
property fails. -/
theorem splitStory_words (text : Str) (opts : SplitOptions) (fuel : ℕ) (l : List Str)
    (h1 : jsTrim text ≠ [])
    (h2 : ∀ s ∈ splitIntoSentences (jsTrim text), s.length ≤ opts.maxCharsPerSlide)
    (h3 : opts.minSlides ≤ (splitIntoSentences (jsTrim text)).length)
    (h4 : 0 < opts.maxSlides)
    (h : splitStoryFuel fuel text opts = some l) :
    wordsOf (joinSp l) = wordsOf (jsTrim text) := by
  unfold splitStoryFuel at h
  rw [if_neg h1] at h
  rw [candidateSlides_of_short text opts (fun s hs => by have := h2 s hs; omega)] at h
  have hSne : splitIntoSentences (jsTrim text) ≠ [] := by
    apply splitIntoSentences_ne_nil
    rw [wordsOf_jsTrim]
    exact wordsOf_ne_nil_of_trim text h1
  unfold adjustSlideCountFuel at h
  rw [if_neg hSne] at h
  by_cases hm : opts.maxSlides < (splitIntoSentences (jsTrim text)).length
  · rw [if_pos hm] at h
    have hn : 0 < (splitIntoSentences (jsTrim text)).length := List.length_pos.mpr hSne
    have hstep : 0 < jsCeilDiv (splitIntoSentences (jsTrim text)).length opts.maxSlides :=
      jsCeilDiv_pos _ _ h4 hn
    have hmul := jsCeilDiv_le_mul (splitIntoSentences (jsTrim text)).length opts.maxSlides h4
    have hle := jsCeilDiv_le_of_le_mul (splitIntoSentences (jsTrim text)).length
      (jsCeilDiv (splitIntoSentences (jsTrim text)).length opts.maxSlides) opts.maxSlides
      hstep hmul
    have hml : (mergeSlides (splitIntoSentences (jsTrim text)) opts.maxSlides).length =
        jsCeilDiv (splitIntoSentences (jsTrim text)).length
          (jsCeilDiv (splitIntoSentences (jsTrim text)).length opts.maxSlides) := by
      unfold mergeSlides
      rw [List.length_map, chunksOf_length _ hstep]
    have htake : (mergeSlides (splitIntoSentences (jsTrim text)) opts.maxSlides).take
        opts.maxSlides = mergeSlides (splitIntoSentences (jsTrim text)) opts.maxSlides :=
      List.take_of_length_le (by rw [hml]; exact hle)
    rw [htake] at h
    have hl := Option.some.inj h
    subst hl
    rw [wordsOf_joinSp, mergeSlides_words _ _ hstep, splitIntoSentences_words]
  · rw [if_neg hm] at h
    rw [if_neg (by omega :
      ¬ (splitIntoSentences (jsTrim text)).length < opts.minSlides)] at h
    have hl := Option.some.inj h
    subst hl
    rw [wordsOf_joinSp, splitIntoSentences_words]

/-- Witness for C2: the word-preservation theorem applied to the input
"aa bb." with options (10, 1, 20), whose single output segment is the
input itself. -/
theorem splitStory_words_witness :
    wordsOf (joinSp [['a', 'a', ' ', 'b', 'b', '.']]) = wordsOf (jsTrim c2wS.data) :=
  splitStory_words c2wS.data ⟨10, 1, 20⟩ 9 [['a', 'a', ' ', 'b', 'b', '.']]
    (by decide) (by decide) (by decide) (by decide) (by decide)

theorem jsCeilDiv_le_self (n t : ℕ) : jsCeilDiv n t ≤ n := by
  cases t with
  | zero => unfold jsCeilDiv; simp
  | succ s =>
    exact jsCeilDiv_le_of_le_mul n (s + 1) n (by omega)
      (Nat.le_mul_of_pos_right n (by omega))

theorem splitWSGo_words : ∀ (rest : Str) (cur : Str), (∀ c ∈ cur, isWS c = false) →
    (splitWSGo false cur rest).flatMap wordsOf = wordsOf (cur ++ rest) ∧
    (splitWSGo true [] rest).flatMap wordsOf = wordsOf rest := by
  intro rest
  induction rest with
  | nil =>
    intro cur hcur
    constructor
    · show [cur].flatMap wordsOf = wordsOf (cur ++ [])
      simp
    · rfl
  | cons c cs ih =>
    intro cur hcur
    by_cases hws : isWS c = true
    · constructor
      · have he : splitWSGo false cur (c :: cs) = cur :: splitWSGo true [] cs := by
          simp [splitWSGo, hws]
        rw [he, List.flatMap_cons, (ih [] (by simp)).2, wordsOf_append_ws c hws cur cs]
      · have he : splitWSGo true [] (c :: cs) = splitWSGo true [] cs := by
          simp [splitWSGo, hws]
        rw [he, (ih [] (by simp)).2, wordsOf_cons_ws c cs hws]
    · have hws' : isWS c = false := by simpa using hws
      constructor
      · have he : splitWSGo false cur (c :: cs) = splitWSGo false (cur ++ [c]) cs := by
          simp [splitWSGo, hws']
        rw [he]
        have hcur' : ∀ x ∈ cur ++ [c], isWS x = false := by
          intro x hx
          rcases List.mem_append.mp hx with h1 | h1
          · exact hcur x h1
          · simp at h1
            rw [h1]
            exact hws'
        rw [(ih (cur ++ [c]) hcur').1, List.append_assoc]
        rfl
      · have he : splitWSGo true [] (c :: cs) = splitWSGo false [c] cs := by
          simp [splitWSGo, hws']
        rw [he]
        have hc1 : ∀ x ∈ ([c] : Str), isWS x = false := by
          intro x hx
          simp at hx
          rw [hx]
          exact hws'
        rw [(ih [c] hc1).1]
        rfl

theorem jsSplitWS_words (s : Str) : (jsSplitWS s).flatMap wordsOf = wordsOf s := by
  have h := (splitWSGo_words s [] (by simp)).1
  simpa using h

theorem sbcGo_words_le : ∀ (words : List Str) (b : ℕ) (cur : Str) (chunks : List Str),
    ∀ ch ∈ sbcGo b cur chunks words, ch ∈ chunks ∨
      (wordsOf ch).length ≤ (wordsOf cur).length + (words.flatMap wordsOf).length := by
  intro words
  induction words with
  | nil =>
    intro b cur chunks ch hch
    simp only [sbcGo] at hch
    by_cases hc : cur = []
    · rw [if_pos hc] at hch
      exact Or.inl hch
    · rw [if_neg hc] at hch
      rcases List.mem_append.mp hch with h1 | h1
      · exact Or.inl h1
      · simp at h1
        right
        rw [h1]
        simp
  | cons w ws ih =>
    intro b cur chunks ch hch
    simp only [sbcGo] at hch
    have htest : (wordsOf (if cur = [] then w else cur ++ ' ' :: w)).length ≤
        (wordsOf cur).length + (wordsOf w).length := by
      by_cases hc : cur = []
      · rw [if_pos hc, hc]
        simp [wordsOf, wordsOfGo]
      · rw [if_neg hc, wordsOf_append_ws ' ' (by decide) cur w, List.length_append]
    by_cases hlen : (if cur = [] then w else cur ++ ' ' :: w).length ≤ b
    · rw [if_pos hlen] at hch
      rcases ih b _ chunks ch hch with h1 | h1
      · exact Or.inl h1
      · right
        simp only [List.flatMap_cons, List.length_append]
        omega
    · rw [if_neg hlen] at hch
      rcases ih b w _ ch hch with h1 | h1
      · by_cases hc : cur = []
        · rw [if_pos hc] at h1
          exact Or.inl h1
        · rw [if_neg hc] at h1
          rcases List.mem_append.mp h1 with h2 | h2
          · exact Or.inl h2
          · simp at h2
            right
            rw [h2]
            simp
      · right
        simp only [List.flatMap_cons, List.length_append]
        omega

theorem splitByCharacterCount_words (s : Str) (b : ℕ) :
    ∀ ch ∈ splitByCharacterCount s b, (wordsOf ch).length ≤ (wordsOf s).length := by
  intro ch hch
  rcases sbcGo_words_le (jsSplitWS s) b [] [] ch hch with h1 | h1
  · simp at h1
  · have h2 : ((jsSplitWS s).flatMap wordsOf).length = (wordsOf s).length := by
      rw [jsSplitWS_words]
    have h3 : (wordsOf ([] : Str)).length = 0 := rfl
    omega

theorem sbc_Q (m : ℕ) (s : Str) (b : ℕ) (hb : b ≤ s.length)
    (hQ : s.length ≤ m ∨ (wordsOf s).length ≤ 1) :
    ∀ ch ∈ splitByCharacterCount s b, ch.length ≤ m ∨ (wordsOf ch).length ≤ 1 := by
  intro ch hch
  rcases hQ with hQ | hQ
  · rcases splitByCharacterCount_chunk s b ch hch with h1 | h1
    · left
      omega
    · exact Or.inr h1
  · right
    have := splitByCharacterCount_words s b ch hch
    omega

theorem expandFirstPass_foldl_Q (m mins target : ℕ) :
    ∀ (slides acc : List Str),
      (∀ s ∈ acc, s.length ≤ m ∨ (wordsOf s).length ≤ 1) →
      (∀ s ∈ slides, s.length ≤ m ∨ (wordsOf s).length ≤ 1) →
      ∀ s ∈ slides.foldl
        (fun acc slide =>
          if 100 < slide.length ∧ acc.length + target ≤ mins then
            acc ++ splitByCharacterCount slide (jsCeilDiv slide.length target)
          else acc ++ [slide]) acc, s.length ≤ m ∨ (wordsOf s).length ≤ 1 := by
  intro slides
  induction slides with
  | nil => intro acc hacc _ s hs; exact hacc s hs
  | cons a rest ih =>
    intro acc hacc hsl
    simp only [List.foldl_cons]
    apply ih
    · intro s hs
      by_cases hc : 100 < a.length ∧ acc.length + target ≤ mins
      · rw [if_pos hc] at hs
        rcases List.mem_append.mp hs with h1 | h1
        · exact hacc s h1
        · exact sbc_Q m a (jsCeilDiv a.length target) (jsCeilDiv_le_self _ _)
            (hsl a (by simp)) s h1
      · rw [if_neg hc] at hs
        rcases List.mem_append.mp hs with h1 | h1
        · exact hacc s h1
        · simp at h1
          rw [h1]
          exact hsl a (by simp)
    · intro s hs
      exact hsl s (by simp [hs])

theorem expandFirstPass_Q (m mins target : ℕ) (slides : List Str)
    (hsl : ∀ s ∈ slides, s.length ≤ m ∨ (wordsOf s).length ≤ 1) :
    ∀ s ∈ expandFirstPass mins target slides, s.length ≤ m ∨ (wordsOf s).length ≤ 1 := by
  unfold expandFirstPass
  exact expandFirstPass_foldl_Q m mins target slides [] (by simp) hsl

theorem expandLoop_Q (m mins fuel : ℕ) (e l : List Str)
    (hQ : ∀ s ∈ e, s.length ≤ m ∨ (wordsOf s).length ≤ 1)
    (h : expandLoop mins fuel e = some l) :
    ∀ s ∈ l, s.length ≤ m ∨ (wordsOf s).length ≤ 1 := by
  refine expandLoop_some_inv (fun x => ∀ s ∈ x, s.length ≤ m ∨ (wordsOf s).length ≤ 1)
    mins ?_ fuel e l hQ h
  intro x hx hcond hbig s hs
  unfold spliceAt at hs
  rcases List.mem_append.mp hs with h1 | h1
  · rcases List.mem_append.mp h1 with h2 | h2
    · exact hx s (List.mem_of_mem_take h2)
    · have hmem : x.getD (argmaxIdx x) [] ∈ x :=
        getD_mem x _ (argmaxIdx_lt x (List.length_pos.mp hcond.2))
      exact sbc_Q m _ _ (jsCeilDiv_le_self _ 2) (hx _ hmem) s h2
  · exact hx s (List.mem_of_mem_drop h1)

theorem candidateSlides_Q (text : Str) (opts : SplitOptions) :
    ∀ s ∈ candidateSlides text opts,
      s.length ≤ opts.maxCharsPerSlide ∨ (wordsOf s).length ≤ 1 := by
  intro s hs
  unfold candidateSlides at hs
  rw [List.mem_flatMap] at hs
  obtain ⟨p, hp, hsp⟩ := hs
  by_cases h : opts.maxCharsPerSlide < p.length
  · rw [if_pos h] at hsp
    exact splitByCharacterCount_chunk p opts.maxCharsPerSlide s hsp
  · rw [if_neg h] at hsp
    simp at hsp
    left
    rw [hsp]
    omega

def c3S : String := "abcdefgh. ijklmnop."

def c3wS : String := "Hi there."

/-- Counterexample to C3: with maxCharsPerSlide = 10 and maxSlides = 1, the
two 9-character sentences of "abcdefgh. ijklmnop." are merged back into one
19-character two-word segment, exceeding the limit without being a single
word. -/
theorem splitStory_maxChars_counterexample :
    splitStoryFuel 9 c3S.data ⟨10, 1, 1⟩ = some [c3S.data] ∧
      ¬ (c3S.data.length ≤ 10 ∨ (wordsOf c3S.data).length ≤ 1) := by
  constructor
  · decide
  · decide

/-- C3 (amended): when the candidate segment count does not exceed
`maxSlides` (so the merge branch, which can join several short segments
into one overlong multi-word segment, is not taken), every returned
segment is at most `maxCharsPerSlide` characters long or consists of at
most one word. -/
theorem splitStory_maxChars (text : Str) (opts : SplitOptions) (fuel : ℕ) (l : List Str)
    (hcount : (candidateSlides text opts).length ≤ opts.maxSlides)
    (h : splitStoryFuel fuel text opts = some l) :
    ∀ s ∈ l, s.length ≤ opts.maxCharsPerSlide ∨ (wordsOf s).length ≤ 1 := by
  unfold splitStoryFuel at h
  by_cases htrim : jsTrim text = []
  · rw [if_pos htrim] at h
    have hl := Option.some.inj h
    subst hl
    intro s hs
    simp at hs
  · rw [if_neg htrim] at h
    unfold adjustSlideCountFuel at h
    rw [if_neg (candidateSlides_ne_nil text opts htrim)] at h
    rw [if_neg (by omega : ¬ opts.maxSlides < (candidateSlides text opts).length)] at h
    by_cases hmin : (candidateSlides text opts).length < opts.minSlides
    · rw [if_pos hmin] at h
      have h' : (expandLoop opts.minSlides fuel
          (expandFirstPass opts.minSlides
            (jsCeilDiv opts.minSlides (candidateSlides text opts).length)
            (candidateSlides text opts))).map (fun e => e.take opts.maxSlides) = some l := h
      rcases Option.map_eq_some'.mp h' with ⟨e, he, hel⟩
      have hQ := expandFirstPass_Q opts.maxCharsPerSlide opts.minSlides
        (jsCeilDiv opts.minSlides (candidateSlides text opts).length)
        (candidateSlides text opts) (candidateSlides_Q text opts)
      have hQe := expandLoop_Q opts.maxCharsPerSlide opts.minSlides fuel _ e hQ he
      subst hel
      intro s hs
      exact hQe s (List.mem_of_mem_take hs)
    · rw [if_neg hmin] at h
      have hl := Option.some.inj h
      subst hl
      exact candidateSlides_Q text opts

/-- Witness for C3: the bound theorem applied to the input "Hi there." with
options (20, 1, 5), whose single output segment is the input itself. -/
theorem splitStory_maxChars_witness :
    c3wS.data.length ≤ (⟨20, 1, 5⟩ : SplitOptions).maxCharsPerSlide ∨
      (wordsOf c3wS.data).length ≤ 1 :=
  splitStory_maxChars c3wS.data ⟨20, 1, 5⟩ 9 [c3wS.data] (by decide) (by decide)
    c3wS.data (by simp)
